import Mathlib

/-!
Verification of the dependency `Manager` of `internal/xpkg/dep/manager/manager.go`.

The Go code orchestrates: finalize a dependency's version constraint via the
image resolver, reconcile a local cache against the registry via content
digests, fetch and marshal packages on miss or staleness, and recursively
resolve transitive dependencies, accumulating every resolved package.

Shallow embedding conventions:
* the external collaborators (image resolver and package marshaler, spec §4.4
  and §6) are a `World` of response functions;
* the cache (spec §4.3, implementation not part of the analysed sources) is
  modelled from the spec as an association list whose `get` fails with the
  distinguished `Err.notFound` when the key is absent and whose `store`
  overwrites the entry for the key;
* the mutable `Manager` fields (`c` the cache, `acc` the accumulator) are an
  explicit `MState` threaded through every call;
* each call into a collaborator is recorded in a ghost `Event` trace so that
  "no fetch happened" style properties are statable;
* the unbounded recursion of `resolveAllDeps` is driven by a fuel counter;
  `RunRes.gas` at every fuel bound models non-termination.
-/

set_option autoImplicit false

deriving instance DecidableEq for Except

/-- Error outcomes visible to the Manager (spec §7).  `notFound` is the
distinguished cache-miss outcome (`os.IsNotExist` in the Go code). -/
inductive Err where
  | notFound
  | resolutionError
  | malformedPackage
  | cacheError
  | other (msg : String)
deriving DecidableEq, Repr

/-- `v1beta1.Dependency`: package reference, version constraint and package
type.  `constraints` starts as a range and is overwritten with the concrete
resolved version by `finalizeDepVersion`. -/
structure Dep where
  pkg : String
  constraints : String
  dtype : String
deriving DecidableEq, Repr

/-- The zero value `v1beta1.Dependency\x7b\x7d` produced by `Resolve` before
any field is populated. -/
def emptyDep : Dep := { pkg := "", constraints := "", dtype := "" }

/-- `xpkg.ParsedPackage`: parsed package metadata.  `validators` is the
exported mapping from type identifier (`schema.GroupVersionKind`, modelled as
a string) to validator (modelled as an opaque number). -/
structure ParsedPackage where
  ptype : String
  version : String
  digest : String
  deps : List Dep
  validators : List (String × Nat)
deriving DecidableEq, Repr

/-- Ghost record of one call to an external collaborator or to the cache. -/
inductive Event where
  | tag (d : Dep)
  | digest (d : Dep)
  | fetch (d : Dep)
  | marshal (d : Dep)
  | get (d : Dep)
  | store (d : Dep)
deriving DecidableEq, Repr

/-- The external collaborators of the Manager: the image resolver
(`ResolveTag`, `ResolveDigest`, `ResolveImage`) and the package marshaler
(`FromImage`).  Modelled from the spec (§4.4, §6): each is a pure response
function, fixed for the duration of a run ("registry state at call time"). -/
structure World where
  resolveTag : Dep → Except Err String
  resolveDigest : Dep → Except Err String
  resolveImage : Dep → Except Err (String × Nat)
  fromImage : String → String → Nat → Except Err ParsedPackage

/-- Cache lookup.  Modelled from the spec (§4.3): `get(identity) → package`
fails with a distinguished `NotFound` outcome when absent. -/
def cacheGet : List (Dep × ParsedPackage) → Dep → Except Err ParsedPackage
  | [], _ => Except.error Err.notFound
  | e :: rest, d => if e.1 = d then Except.ok e.2 else cacheGet rest d

/-- Cache store.  Modelled from the spec (§4.3): idempotent, last write for a
given identity wins (the entry is overwritten). -/
def cacheStore : List (Dep × ParsedPackage) → Dep → ParsedPackage → List (Dep × ParsedPackage)
  | [], d, p => [(d, p)]
  | e :: rest, d, p => if e.1 = d then (d, p) :: rest else e :: cacheStore rest d p

/-- The mutable fields of the Go `Manager` struct: the cache contents and the
long-lived accumulator `m.acc`. -/
structure MState where
  cache : List (Dep × ParsedPackage)
  acc : List ParsedPackage
deriving DecidableEq, Repr

/-- Outcome of a fuel-driven run: normal result, hard error, or fuel
exhaustion (`gas`, the marker for a recursion deeper than the fuel bound). -/
inductive RunRes (α : Type) where
  | ok (a : α)
  | err (e : Err)
  | gas
deriving DecidableEq, Repr

/-- `Manager.finalizeDepVersion`: resolve the version constraint to a
concrete tag version and write it back onto the dependency. -/
def Manager.finalizeDepVersion (w : World) (d : Dep) : Except Err Dep × List Event :=
  match w.resolveTag d with
  | Except.error e => (Except.error e, [Event.tag d])
  | Except.ok v => (Except.ok { d with constraints := v }, [Event.tag d])

/-- `Manager.addPkg`: fetch the image, marshal it into a `ParsedPackage` and
store the result in the cache under `d`. -/
def Manager.addPkg (w : World) (s : MState) (d : Dep) : Except Err (ParsedPackage × MState) × List Event :=
  match w.resolveImage d with
  | Except.error e => (Except.error e, [Event.fetch d])
  | Except.ok ti =>
    match w.fromImage d.pkg ti.1 ti.2 with
    | Except.error e => (Except.error e, [Event.fetch d, Event.marshal d])
    | Except.ok p =>
      (Except.ok (p, { s with cache := cacheStore s.cache d p }),
        [Event.fetch d, Event.marshal d, Event.store d])

/-- `Manager.retrievePkg`: finalize the version, look the finalized identity
up in the cache, absorb a `NotFound` into a fetch-and-store, and on a hit
compare the cached digest with the registry digest, re-fetching when they
differ. -/
def Manager.retrievePkg (w : World) (s : MState) (d : Dep) : Except Err (ParsedPackage × MState) × List Event :=
  match Manager.finalizeDepVersion w d with
  | (Except.error e, ev) => (Except.error e, ev)
  | (Except.ok df, ev) =>
    match cacheGet s.cache df with
    | Except.error e =>
      if e = Err.notFound then
        match Manager.addPkg w s df with
        | (r, ev2) => (r, ev ++ [Event.get df] ++ ev2)
      else (Except.error e, ev ++ [Event.get df])
    | Except.ok p =>
      match w.resolveDigest df with
      | Except.error e => (Except.error e, ev ++ [Event.get df, Event.digest df])
      | Except.ok dig =>
        if p.digest ≠ dig then
          match Manager.addPkg w s df with
          | (r, ev2) => (r, ev ++ [Event.get df, Event.digest df] ++ ev2)
        else (Except.ok (p, s), ev ++ [Event.get df, Event.digest df])

/-- The loop body of `Manager.resolveAllDeps`: for each declared dependency,
retrieve its package, append it to the accumulator, and recurse into the
retrieved package via `recurse` (the fuel-smaller `resolveAllDeps`). -/
def Manager.resolveDepsLoop (w : World) (recurse : MState → ParsedPackage → RunRes MState × List Event) :
    MState → List Dep → RunRes MState × List Event
  | s, [] => (RunRes.ok s, [])
  | s, d :: rest =>
    match Manager.retrievePkg w s d with
    | (Except.error e, ev) => (RunRes.err e, ev)
    | (Except.ok (e, s1), ev) =>
      match recurse { s1 with acc := s1.acc ++ [e] } e with
      | (RunRes.ok s3, ev2) =>
        match Manager.resolveDepsLoop w recurse s3 rest with
        | (r, ev3) => (r, ev ++ ev2 ++ ev3)
      | (RunRes.err er, ev2) => (RunRes.err er, ev ++ ev2)
      | (RunRes.gas, ev2) => (RunRes.gas, ev ++ ev2)

/-- `Manager.resolveAllDeps`: recursively resolve the transitive dependencies
of `p`.  Returns immediately when `p` declares no dependencies.  The fuel
argument bounds the recursion depth; the Go original recurses unboundedly. -/
def Manager.resolveAllDeps (w : World) : Nat → MState → ParsedPackage → RunRes MState × List Event
  | fuel, s, p =>
    if p.deps.isEmpty then (RunRes.ok s, [])
    else
      match fuel with
      | 0 => (RunRes.gas, [])
      | Nat.succ f => Manager.resolveDepsLoop w (Manager.resolveAllDeps w f) s p.deps

/-- `Manager.Resolve`: resolve one dependency and its transitive closure.  A
failure to retrieve the root package is swallowed (`return ud, m.acc, nil`),
while an error from `resolveAllDeps` is propagated. -/
def Manager.Resolve (w : World) (fuel : Nat) (s : MState) (d : Dep) :
    RunRes (Dep × List ParsedPackage × MState) × List Event :=
  match Manager.retrievePkg w s d with
  | (Except.error _, ev) => (RunRes.ok (emptyDep, s.acc, s), ev)
  | (Except.ok (e, s1), ev) =>
    let s2 : MState := { s1 with acc := s1.acc ++ [e] }
    match Manager.resolveAllDeps w fuel s2 e with
    | (RunRes.ok s3, ev2) =>
      (RunRes.ok ({ pkg := d.pkg, constraints := e.version, dtype := e.ptype }, s3.acc, s3), ev ++ ev2)
    | (RunRes.err er, ev2) => (RunRes.err er, ev ++ ev2)
    | (RunRes.gas, ev2) => (RunRes.gas, ev ++ ev2)

/-- Overwriting insertion into the snapshot view (`view[k] = v` on a Go map). -/
def viewInsert : List (String × Nat) → String → Nat → List (String × Nat)
  | [], k, v => [(k, v)]
  | e :: rest, k, v => if e.1 = k then (k, v) :: rest else e :: viewInsert rest k v

/-- Lookup in the snapshot view. -/
def viewLookup : List (String × Nat) → String → Option Nat
  | [], _ => none
  | e :: rest, k => if e.1 = k then some e.2 else viewLookup rest k

/-- `for k, v := range p.Validators() \x7b view[k] = v \x7d`. -/
def insertAll (view : List (String × Nat)) : List (String × Nat) → List (String × Nat)
  | [] => view
  | e :: rest => insertAll (viewInsert view e.1 e.2) rest

/-- The iteration of one `Resolve` round's accumulator into the view. -/
def insertPkgs (view : List (String × Nat)) : List ParsedPackage → List (String × Nat)
  | [] => view
  | p :: rest => insertPkgs (insertAll view p.validators) rest

/-- The `Snapshot` struct: a read-only mapping from type identifier to
validator. -/
structure Snapshot where
  view : List (String × Nat)
deriving DecidableEq, Repr

/-- The loop of `Manager.Snapshot`: resolve each root dependency and merge
every accumulated package's validators into the shared view. -/
def Manager.snapshotLoop (w : World) (fuel : Nat) :
    MState → List Dep → List (String × Nat) → RunRes (List (String × Nat) × MState) × List Event
  | s, [], view => (RunRes.ok (view, s), [])
  | s, d :: rest, view =>
    match Manager.Resolve w fuel s d with
    | (RunRes.ok (_, acc, s1), ev) =>
      match Manager.snapshotLoop w fuel s1 rest (insertPkgs view acc) with
      | (r, ev2) => (r, ev ++ ev2)
    | (RunRes.err e, ev) => (RunRes.err e, ev)
    | (RunRes.gas, ev) => (RunRes.gas, ev)

/-- `Manager.Snapshot`: resolve every root dependency and return the merged
validator view. -/
def Manager.Snapshot (w : World) (fuel : Nat) (s : MState) (ds : List Dep) :
    RunRes (Snapshot × MState) × List Event :=
  match Manager.snapshotLoop w fuel s ds [] with
  | (RunRes.ok (view, s1), ev) => (RunRes.ok ({ view := view }, s1), ev)
  | (RunRes.err e, ev) => (RunRes.err e, ev)
  | (RunRes.gas, ev) => (RunRes.gas, ev)

/-! ### Specification-side notions -/

/-- The finalized form of a dependency when the resolver assigns versions by
`tagf`: the constraint is replaced by the concrete version. -/
def finDep (tagf : Dep → String) (d : Dep) : Dep := { d with constraints := tagf d }

/-- A world whose resolver and marshaler always answer, with `tagf` the
assignment of concrete versions and `pkgOf` the package served for each
(finalized) identity; the marshaled package's digest agrees with the
registry digest ("no registry change" during and between runs). -/
structure GoodWorld (w : World) (tagf : Dep → String) (pkgOf : Dep → ParsedPackage) : Prop where
  tag_ok : ∀ d, w.resolveTag d = Except.ok (tagf d)
  fetch_ok : ∀ d, ∃ t i, w.resolveImage d = Except.ok (t, i) ∧
    w.fromImage d.pkg t i = Except.ok (pkgOf d)
  digest_ok : ∀ d, w.resolveDigest d = Except.ok (pkgOf d).digest

/-- Whatever the cache holds for an identity is exactly the package the
registry serves for that identity. -/
def CacheGood (pkgOf : Dep → ParsedPackage) (c : List (Dep × ParsedPackage)) : Prop :=
  ∀ d p, cacheGet c d = Except.ok p → p = pkgOf d

/-- The marshaler/registry coherence assumption of the spec (§3, Resolved
Package invariant): the digest of a fetched-and-marshaled package is the
registry's digest for the identity it was fetched for. -/
def Coherent (w : World) : Prop :=
  ∀ d t i q, w.resolveImage d = Except.ok (t, i) →
    w.fromImage d.pkg t i = Except.ok q → w.resolveDigest d = Except.ok q.digest

/-- The identity has a cache entry. -/
def isHit (c : List (Dep × ParsedPackage)) (d : Dep) : Prop :=
  ∃ p, cacheGet c d = Except.ok p

/-- No fetch call occurs in the trace. -/
def fetchFree (ev : List Event) : Prop := ∀ d, Event.fetch d ∉ ev

/-- No marshal call occurs in the trace. -/
def marshalFree (ev : List Event) : Prop := ∀ d, Event.marshal d ∉ ev

/-- The retrieval function induced by a good world: the package obtained for
a declared (unfinalized) dependency. -/
def retOf (tagf : Dep → String) (pkgOf : Dep → ParsedPackage) (d : Dep) : ParsedPackage :=
  pkgOf (finDep tagf d)

/-- Fuel-indexed success predicate of `resolveAllDeps` over the pure
dependency graph `g` (`g d` = package retrieved for declared dependency
`d`): true when the whole transitive traversal fits in the fuel bound. -/
def okAtP (g : Dep → ParsedPackage) : Nat → ParsedPackage → Bool
  | fuel, p =>
    if p.deps.isEmpty then true
    else
      match fuel with
      | 0 => false
      | Nat.succ f => p.deps.all (fun d => okAtP g f (g d))

/-- The sequence of packages appended to the accumulator by a successful
`resolveAllDeps` run on `p`: depth-first, each package directly followed by
its own transitive emissions. -/
def emitP (g : Dep → ParsedPackage) : Nat → ParsedPackage → List ParsedPackage
  | fuel, p =>
    if p.deps.isEmpty then []
    else
      match fuel with
      | 0 => []
      | Nat.succ f => p.deps.flatMap (fun d => g d :: emitP g f (g d))

/-- The finalized identities visited (retrieved) by a `resolveAllDeps` run
on `p`. -/
def visP (tagf : Dep → String) (g : Dep → ParsedPackage) : Nat → ParsedPackage → List Dep
  | fuel, p =>
    if p.deps.isEmpty then []
    else
      match fuel with
      | 0 => []
      | Nat.succ f => p.deps.flatMap (fun d => finDep tagf d :: visP tagf g f (g d))

/-- Reachability along declared-dependency edges: `Reaches g d q` holds when
package `q` is the package of `d` itself or of some transitively declared
dependency of it. -/
inductive Reaches (g : Dep → ParsedPackage) : Dep → ParsedPackage → Prop where
  | here (d : Dep) : Reaches g d (g d)
  | step (d d2 : Dep) (q : ParsedPackage) :
      d2 ∈ (g d).deps → Reaches g d2 q → Reaches g d q

/-- The value of the last entry for `key` in an insertion sequence (`none`
when no entry mentions `key`). -/
def lastVal : List (String × Nat) → String → Option Nat
  | [], _ => none
  | e :: rest, key =>
    match lastVal rest key with
    | some r => some r
    | none => if e.1 = key then some e.2 else none

/-- The full validator insertion sequence of an accumulator, in accumulation
order. -/
def flatVals (acc : List ParsedPackage) : List (String × Nat) :=
  acc.flatMap (fun p => p.validators)

/-! ### Basic lemmas about the cache, the view and the traces -/

theorem cacheGet_error_eq {c : List (Dep × ParsedPackage)} {d : Dep} {e : Err}
    (h : cacheGet c d = Except.error e) : e = Err.notFound := by
  induction c with
  | nil =>
    rw [cacheGet] at h
    injection h with h1
    exact h1.symm
  | cons hd tl ih =>
    rw [cacheGet] at h
    by_cases hk : hd.1 = d
    · rw [if_pos hk] at h
      exact Except.noConfusion h
    · rw [if_neg hk] at h
      exact ih h

theorem cacheGet_cacheStore (c : List (Dep × ParsedPackage)) (d d' : Dep) (p : ParsedPackage) :
    cacheGet (cacheStore c d p) d' = if d' = d then Except.ok p else cacheGet c d' := by
  induction c with
  | nil =>
    simp only [cacheStore, cacheGet]
    by_cases hk : d' = d
    · rw [if_pos hk.symm, if_pos hk]
    · rw [if_neg (fun h => hk h.symm), if_neg hk]
  | cons hd tl ih =>
    rw [cacheStore]
    by_cases h1 : hd.1 = d
    · rw [if_pos h1]
      simp only [cacheGet]
      by_cases hk : d' = d
      · rw [if_pos hk.symm, if_pos hk]
      · rw [if_neg (fun h => hk h.symm), if_neg hk,
          if_neg (fun h : hd.1 = d' => hk (h1.symm.trans h).symm)]
    · rw [if_neg h1]
      simp only [cacheGet]
      by_cases h2 : hd.1 = d'
      · rw [if_pos h2, if_neg (fun h : d' = d => h1 (h2.trans h)), if_pos h2]
      · rw [if_neg h2, ih]
        by_cases hk : d' = d
        · rw [if_pos hk, if_pos hk]
        · rw [if_neg hk, if_neg hk, if_neg h2]

theorem isHit_cacheStore {c : List (Dep × ParsedPackage)} {k : Dep} (d : Dep) (p : ParsedPackage)
    (h : isHit c k) : isHit (cacheStore c d p) k := by
  rcases h with ⟨q, hq⟩
  by_cases hk : k = d
  · exact ⟨p, by rw [cacheGet_cacheStore, if_pos hk]⟩
  · exact ⟨q, by rw [cacheGet_cacheStore, if_neg hk]; exact hq⟩

theorem isHit_cacheStore_self (c : List (Dep × ParsedPackage)) (d : Dep) (p : ParsedPackage) :
    isHit (cacheStore c d p) d := ⟨p, by rw [cacheGet_cacheStore, if_pos rfl]⟩

theorem cacheGood_cacheStore {pkgOf : Dep → ParsedPackage} {c : List (Dep × ParsedPackage)}
    (hc : CacheGood pkgOf c) (d : Dep) :
    CacheGood pkgOf (cacheStore c d (pkgOf d)) := by
  intro k q hq
  rw [cacheGet_cacheStore] at hq
  by_cases hk : k = d
  · rw [if_pos hk] at hq
    cases hq
    rw [hk]
  · rw [if_neg hk] at hq
    exact hc k q hq

theorem not_isHit_of_error {c : List (Dep × ParsedPackage)} {d : Dep} {e : Err}
    (h : cacheGet c d = Except.error e) : ¬ isHit c d := by
  rintro ⟨q, hq⟩
  rw [h] at hq
  exact Except.noConfusion hq

theorem fetchFree_nil : fetchFree [] := by
  intro d hd
  exact List.not_mem_nil _ hd

theorem fetchFree_append {a b : List Event} (ha : fetchFree a) (hb : fetchFree b) :
    fetchFree (a ++ b) := by
  intro d hd
  rcases List.mem_append.mp hd with h | h
  · exact ha d h
  · exact hb d h

theorem fetchFree_tgd (d df : Dep) :
    fetchFree [Event.tag d, Event.get df, Event.digest df] := by
  intro k hk
  simp at hk

/-! ### Path lemmas for `retrievePkg`: one per control-flow branch -/

theorem retrievePkg_tagError {w : World} {s : MState} {d : Dep} {e : Err}
    (htag : w.resolveTag d = Except.error e) :
    Manager.retrievePkg w s d = (Except.error e, [Event.tag d]) := by
  simp [Manager.retrievePkg, Manager.finalizeDepVersion, htag]

theorem retrievePkg_missOk {w : World} {s : MState} {d : Dep} {v t : String} {i : Nat}
    {q : ParsedPackage}
    (htag : w.resolveTag d = Except.ok v)
    (hget : cacheGet s.cache { d with constraints := v } = Except.error Err.notFound)
    (himg : w.resolveImage { d with constraints := v } = Except.ok (t, i))
    (hmar : w.fromImage d.pkg t i = Except.ok q) :
    Manager.retrievePkg w s d =
      (Except.ok (q, { s with cache := cacheStore s.cache { d with constraints := v } q }),
        [Event.tag d, Event.get { d with constraints := v },
         Event.fetch { d with constraints := v }, Event.marshal { d with constraints := v },
         Event.store { d with constraints := v }]) := by
  simp [Manager.retrievePkg, Manager.finalizeDepVersion, Manager.addPkg, htag, hget, himg, hmar]

theorem retrievePkg_missImgErr {w : World} {s : MState} {d : Dep} {v : String} {e : Err}
    (htag : w.resolveTag d = Except.ok v)
    (hget : cacheGet s.cache { d with constraints := v } = Except.error Err.notFound)
    (himg : w.resolveImage { d with constraints := v } = Except.error e) :
    Manager.retrievePkg w s d =
      (Except.error e,
        [Event.tag d, Event.get { d with constraints := v },
         Event.fetch { d with constraints := v }]) := by
  simp [Manager.retrievePkg, Manager.finalizeDepVersion, Manager.addPkg, htag, hget, himg]

theorem retrievePkg_missMarErr {w : World} {s : MState} {d : Dep} {v t : String} {i : Nat} {e : Err}
    (htag : w.resolveTag d = Except.ok v)
    (hget : cacheGet s.cache { d with constraints := v } = Except.error Err.notFound)
    (himg : w.resolveImage { d with constraints := v } = Except.ok (t, i))
    (hmar : w.fromImage d.pkg t i = Except.error e) :
    Manager.retrievePkg w s d =
      (Except.error e,
        [Event.tag d, Event.get { d with constraints := v },
         Event.fetch { d with constraints := v }, Event.marshal { d with constraints := v }]) := by
  simp [Manager.retrievePkg, Manager.finalizeDepVersion, Manager.addPkg, htag, hget, himg, hmar]

theorem retrievePkg_digestError {w : World} {s : MState} {d : Dep} {v : String}
    {p : ParsedPackage} {e : Err}
    (htag : w.resolveTag d = Except.ok v)
    (hget : cacheGet s.cache { d with constraints := v } = Except.ok p)
    (hdig : w.resolveDigest { d with constraints := v } = Except.error e) :
    Manager.retrievePkg w s d =
      (Except.error e,
        [Event.tag d, Event.get { d with constraints := v },
         Event.digest { d with constraints := v }]) := by
  simp [Manager.retrievePkg, Manager.finalizeDepVersion, htag, hget, hdig]

theorem retrievePkg_hitFresh {w : World} {s : MState} {d : Dep} {v : String}
    {p : ParsedPackage}
    (htag : w.resolveTag d = Except.ok v)
    (hget : cacheGet s.cache { d with constraints := v } = Except.ok p)
    (hdig : w.resolveDigest { d with constraints := v } = Except.ok p.digest) :
    Manager.retrievePkg w s d =
      (Except.ok (p, s),
        [Event.tag d, Event.get { d with constraints := v },
         Event.digest { d with constraints := v }]) := by
  simp [Manager.retrievePkg, Manager.finalizeDepVersion, htag, hget, hdig]

theorem retrievePkg_staleOk {w : World} {s : MState} {d : Dep} {v t dg : String} {i : Nat}
    {p q : ParsedPackage}
    (htag : w.resolveTag d = Except.ok v)
    (hget : cacheGet s.cache { d with constraints := v } = Except.ok p)
    (hdig : w.resolveDigest { d with constraints := v } = Except.ok dg)
    (hne : p.digest ≠ dg)
    (himg : w.resolveImage { d with constraints := v } = Except.ok (t, i))
    (hmar : w.fromImage d.pkg t i = Except.ok q) :
    Manager.retrievePkg w s d =
      (Except.ok (q, { s with cache := cacheStore s.cache { d with constraints := v } q }),
        [Event.tag d, Event.get { d with constraints := v },
         Event.digest { d with constraints := v }, Event.fetch { d with constraints := v },
         Event.marshal { d with constraints := v }, Event.store { d with constraints := v }]) := by
  simp [Manager.retrievePkg, Manager.finalizeDepVersion, Manager.addPkg, htag, hget, hdig, hne,
    himg, hmar]

theorem retrievePkg_staleImgErr {w : World} {s : MState} {d : Dep} {v dg : String} {e : Err}
    {p : ParsedPackage}
    (htag : w.resolveTag d = Except.ok v)
    (hget : cacheGet s.cache { d with constraints := v } = Except.ok p)
    (hdig : w.resolveDigest { d with constraints := v } = Except.ok dg)
    (hne : p.digest ≠ dg)
    (himg : w.resolveImage { d with constraints := v } = Except.error e) :
    Manager.retrievePkg w s d =
      (Except.error e,
        [Event.tag d, Event.get { d with constraints := v },
         Event.digest { d with constraints := v }, Event.fetch { d with constraints := v }]) := by
  simp [Manager.retrievePkg, Manager.finalizeDepVersion, Manager.addPkg, htag, hget, hdig, hne,
    himg]

theorem retrievePkg_staleMarErr {w : World} {s : MState} {d : Dep} {v t dg : String} {i : Nat}
    {e : Err} {p : ParsedPackage}
    (htag : w.resolveTag d = Except.ok v)
    (hget : cacheGet s.cache { d with constraints := v } = Except.ok p)
    (hdig : w.resolveDigest { d with constraints := v } = Except.ok dg)
    (hne : p.digest ≠ dg)
    (himg : w.resolveImage { d with constraints := v } = Except.ok (t, i))
    (hmar : w.fromImage d.pkg t i = Except.error e) :
    Manager.retrievePkg w s d =
      (Except.error e,
        [Event.tag d, Event.get { d with constraints := v },
         Event.digest { d with constraints := v }, Event.fetch { d with constraints := v },
         Event.marshal { d with constraints := v }]) := by
  simp [Manager.retrievePkg, Manager.finalizeDepVersion, Manager.addPkg, htag, hget, hdig, hne,
    himg, hmar]

/-! ### Inversion of `retrievePkg` -/

/-- Every successful retrieval went through exactly one of the three paths:
fetch on a cache miss, fresh cache hit, or re-fetch on a stale digest. -/
theorem retrievePkg_ok_inv {w : World} {s : MState} {d : Dep} {p : ParsedPackage} {s' : MState}
    {ev : List Event} (h : Manager.retrievePkg w s d = (Except.ok (p, s'), ev)) :
    ∃ v, w.resolveTag d = Except.ok v ∧
      ((cacheGet s.cache { d with constraints := v } = Except.error Err.notFound ∧
        (∃ t i, w.resolveImage { d with constraints := v } = Except.ok (t, i) ∧
          w.fromImage d.pkg t i = Except.ok p) ∧
        s' = { s with cache := cacheStore s.cache { d with constraints := v } p } ∧
        ev = [Event.tag d, Event.get { d with constraints := v },
          Event.fetch { d with constraints := v }, Event.marshal { d with constraints := v },
          Event.store { d with constraints := v }]) ∨
      (cacheGet s.cache { d with constraints := v } = Except.ok p ∧
        w.resolveDigest { d with constraints := v } = Except.ok p.digest ∧
        s' = s ∧
        ev = [Event.tag d, Event.get { d with constraints := v },
          Event.digest { d with constraints := v }]) ∨
      (∃ pc dg, cacheGet s.cache { d with constraints := v } = Except.ok pc ∧
        w.resolveDigest { d with constraints := v } = Except.ok dg ∧ pc.digest ≠ dg ∧
        (∃ t i, w.resolveImage { d with constraints := v } = Except.ok (t, i) ∧
          w.fromImage d.pkg t i = Except.ok p) ∧
        s' = { s with cache := cacheStore s.cache { d with constraints := v } p } ∧
        ev = [Event.tag d, Event.get { d with constraints := v },
          Event.digest { d with constraints := v }, Event.fetch { d with constraints := v },
          Event.marshal { d with constraints := v }, Event.store { d with constraints := v }])) := by
  rcases htag : w.resolveTag d with e | v
  · rw [retrievePkg_tagError htag] at h
    simp at h
  · refine ⟨v, rfl, ?_⟩
    rcases hget : cacheGet s.cache { d with constraints := v } with e | pc
    · have he : e = Err.notFound := cacheGet_error_eq hget
      subst he
      rcases himg : w.resolveImage { d with constraints := v } with e2 | ti
      · rw [retrievePkg_missImgErr htag hget himg] at h
        simp at h
      · obtain ⟨t, i⟩ := ti
        rcases hmar : w.fromImage d.pkg t i with e3 | q
        · rw [retrievePkg_missMarErr htag hget himg hmar] at h
          simp at h
        · rw [retrievePkg_missOk htag hget himg hmar] at h
          simp only [Prod.mk.injEq, Except.ok.injEq] at h
          obtain ⟨⟨hqp, hs⟩, hev⟩ := h
          subst hqp
          exact Or.inl ⟨rfl, ⟨t, i, rfl, hmar⟩, hs.symm, hev.symm⟩
    · rcases hdig : w.resolveDigest { d with constraints := v } with e2 | dg
      · rw [retrievePkg_digestError htag hget hdig] at h
        simp at h
      · by_cases hdg : pc.digest = dg
        · subst hdg
          rw [retrievePkg_hitFresh htag hget hdig] at h
          simp only [Prod.mk.injEq, Except.ok.injEq] at h
          obtain ⟨⟨hqp, hs⟩, hev⟩ := h
          subst hqp
          exact Or.inr (Or.inl ⟨rfl, rfl, hs.symm, hev.symm⟩)
        · rcases himg : w.resolveImage { d with constraints := v } with e3 | ti
          · rw [retrievePkg_staleImgErr htag hget hdig hdg himg] at h
            simp at h
          · obtain ⟨t, i⟩ := ti
            rcases hmar : w.fromImage d.pkg t i with e4 | q
            · rw [retrievePkg_staleMarErr htag hget hdig hdg himg hmar] at h
              simp at h
            · rw [retrievePkg_staleOk htag hget hdig hdg himg hmar] at h
              simp only [Prod.mk.injEq, Except.ok.injEq] at h
              obtain ⟨⟨hqp, hs⟩, hev⟩ := h
              subst hqp
              exact Or.inr (Or.inr ⟨pc, dg, rfl, rfl, hdg, ⟨t, i, rfl, hmar⟩, hs.symm,
                hev.symm⟩)

/-- Every failing retrieval reports an error produced by one of the four
external resolver or marshaler calls; in particular the cache's `NotFound`
is never itself the reported error unless a collaborator returned it. -/
theorem retrievePkg_err_inv {w : World} {s : MState} {d : Dep} {e : Err}
    (h : (Manager.retrievePkg w s d).1 = Except.error e) :
    w.resolveTag d = Except.error e ∨
    (∃ d', w.resolveImage d' = Except.error e) ∨
    (∃ n t i, w.fromImage n t i = Except.error e) ∨
    (∃ d', w.resolveDigest d' = Except.error e) := by
  rcases htag : w.resolveTag d with e0 | v
  · rw [retrievePkg_tagError htag] at h
    exact Or.inl (by simpa using h)
  · rcases hget : cacheGet s.cache { d with constraints := v } with e0 | pc
    · have he : e0 = Err.notFound := cacheGet_error_eq hget
      subst he
      rcases himg : w.resolveImage { d with constraints := v } with e2 | ti
      · rw [retrievePkg_missImgErr htag hget himg] at h
        simp at h
        exact Or.inr (Or.inl ⟨_, h ▸ himg⟩)
      · obtain ⟨t, i⟩ := ti
        rcases hmar : w.fromImage d.pkg t i with e3 | q
        · rw [retrievePkg_missMarErr htag hget himg hmar] at h
          simp at h
          exact Or.inr (Or.inr (Or.inl ⟨_, _, _, h ▸ hmar⟩))
        · rw [retrievePkg_missOk htag hget himg hmar] at h
          simp at h
    · rcases hdig : w.resolveDigest { d with constraints := v } with e2 | dg
      · rw [retrievePkg_digestError htag hget hdig] at h
        simp at h
        exact Or.inr (Or.inr (Or.inr ⟨_, h ▸ hdig⟩))
      · by_cases hdg : pc.digest = dg
        · subst hdg
          rw [retrievePkg_hitFresh htag hget hdig] at h
          simp at h
        · rcases himg : w.resolveImage { d with constraints := v } with e3 | ti
          · rw [retrievePkg_staleImgErr htag hget hdig hdg himg] at h
            simp at h
            exact Or.inr (Or.inl ⟨_, h ▸ himg⟩)
          · obtain ⟨t, i⟩ := ti
            rcases hmar : w.fromImage d.pkg t i with e4 | q
            · rw [retrievePkg_staleMarErr htag hget hdig hdg himg hmar] at h
              simp at h
              exact Or.inr (Or.inr (Or.inl ⟨_, _, _, h ▸ hmar⟩))
            · rw [retrievePkg_staleOk htag hget hdig hdg himg hmar] at h
              simp at h

/-- `retrievePkg` never touches the accumulator (only `Resolve` and the
recursion loop append to it). -/
theorem retrievePkg_acc {w : World} {s : MState} {d : Dep} {p : ParsedPackage} {s' : MState}
    {ev : List Event} (h : Manager.retrievePkg w s d = (Except.ok (p, s'), ev)) :
    s'.acc = s.acc := by
  obtain ⟨v, -, hcase⟩ := retrievePkg_ok_inv h
  rcases hcase with ⟨-, -, hs, -⟩ | ⟨-, -, hs, -⟩ | ⟨pc, dg, -, -, -, -, hs, -⟩ <;> rw [hs]

/-! ### Behaviour under a good world -/

/-- Relation between the state before and after one (sub)run: the
accumulator grew exactly by `emitted`, cache consistency is preserved, cache
entries are never dropped, every visited identity is now cached, and if all
visited identities were cached beforehand the trace contains no fetch. -/
def AllGood (pkgOf : Dep → ParsedPackage) (s s' : MState) (emitted : List ParsedPackage)
    (vis : List Dep) (ev : List Event) : Prop :=
  s'.acc = s.acc ++ emitted ∧ CacheGood pkgOf s'.cache ∧
  (∀ k, isHit s.cache k → isHit s'.cache k) ∧
  (∀ k, k ∈ vis → isHit s'.cache k) ∧
  ((∀ k, k ∈ vis → isHit s.cache k) → fetchFree ev)

theorem AllGood.trans {pkgOf : Dep → ParsedPackage} {s s1 s2 : MState}
    {e1 e2 : List ParsedPackage} {v1 v2 : List Dep} {ev1 ev2 : List Event}
    (h1 : AllGood pkgOf s s1 e1 v1 ev1) (h2 : AllGood pkgOf s1 s2 e2 v2 ev2) :
    AllGood pkgOf s s2 (e1 ++ e2) (v1 ++ v2) (ev1 ++ ev2) := by
  obtain ⟨ha1, hg1, hm1, hv1, hf1⟩ := h1
  obtain ⟨ha2, hg2, hm2, hv2, hf2⟩ := h2
  refine ⟨by rw [ha2, ha1, List.append_assoc], hg2, fun k hk => hm2 k (hm1 k hk), ?_, ?_⟩
  · intro k hk
    rcases List.mem_append.mp hk with hk | hk
    · exact hm2 k (hv1 k hk)
    · exact hv2 k hk
  · intro hpre
    refine fetchFree_append (hf1 fun k hk => hpre k (List.mem_append.mpr (Or.inl hk))) ?_
    exact hf2 fun k hk => hm1 k (hpre k (List.mem_append.mpr (Or.inr hk)))

/-- Retrieval under a good world and a consistent cache: the package served
for `d` is `retOf tagf pkgOf d`, the accumulator is untouched, the retrieved
identity is cached afterwards, and a pre-cached identity costs no fetch. -/
theorem retrievePkg_good {w : World} {tagf : Dep → String} {pkgOf : Dep → ParsedPackage}
    (hw : GoodWorld w tagf pkgOf) {s : MState} (d : Dep)
    (hc : CacheGood pkgOf s.cache) :
    ∃ s' ev, Manager.retrievePkg w s d = (Except.ok (retOf tagf pkgOf d, s'), ev) ∧
      s'.acc = s.acc ∧ CacheGood pkgOf s'.cache ∧
      (∀ k, isHit s.cache k → isHit s'.cache k) ∧
      isHit s'.cache (finDep tagf d) ∧
      (isHit s.cache (finDep tagf d) → fetchFree ev) := by
  have htag := hw.tag_ok d
  rcases hget : cacheGet s.cache (finDep tagf d) with e | pc
  · have he : e = Err.notFound := cacheGet_error_eq hget
    subst he
    obtain ⟨t, i, himg, hmar⟩ := hw.fetch_ok (finDep tagf d)
    refine ⟨_, _, retrievePkg_missOk htag hget himg hmar, rfl,
      cacheGood_cacheStore hc (finDep tagf d), ?_, ?_, ?_⟩
    · intro k hk
      exact isHit_cacheStore _ _ hk
    · exact isHit_cacheStore_self _ _ _
    · intro hhit
      exact absurd hhit (not_isHit_of_error hget)
  · have hpc : pc = pkgOf (finDep tagf d) := hc _ _ hget
    subst hpc
    have hdig := hw.digest_ok (finDep tagf d)
    exact ⟨s, _, retrievePkg_hitFresh htag hget hdig, rfl, hc, fun k hk => hk,
      ⟨_, hget⟩, fun _ => fetchFree_tgd _ _⟩

/-- List-level version of `okAtP` (the loop over a package's declared
dependencies, each processed at fuel `f`). -/
def okAtL (g : Dep → ParsedPackage) (f : Nat) (ds : List Dep) : Bool :=
  ds.all (fun d => okAtP g f (g d))

/-- List-level version of `emitP`. -/
def emitL (g : Dep → ParsedPackage) (f : Nat) (ds : List Dep) : List ParsedPackage :=
  ds.flatMap (fun d => g d :: emitP g f (g d))

/-- List-level version of `visP`. -/
def visL (tagf : Dep → String) (g : Dep → ParsedPackage) (f : Nat) (ds : List Dep) : List Dep :=
  ds.flatMap (fun d => finDep tagf d :: visP tagf g f (g d))

theorem okAtP_empty {g : Dep → ParsedPackage} {p : ParsedPackage} (h : p.deps.isEmpty = true)
    (fuel : Nat) : okAtP g fuel p = true := by
  cases fuel with
  | zero => rw [okAtP, if_pos h]
  | succ f => rw [okAtP, if_pos h]

theorem okAtP_zero {g : Dep → ParsedPackage} {p : ParsedPackage} (h : p.deps.isEmpty = false) :
    okAtP g 0 p = false := by
  rw [okAtP, if_neg (by rw [h]; exact Bool.false_ne_true)]

theorem okAtP_succ {g : Dep → ParsedPackage} {p : ParsedPackage} (h : p.deps.isEmpty = false)
    (f : Nat) : okAtP g (Nat.succ f) p = okAtL g f p.deps := by
  rw [okAtP, if_neg (by rw [h]; exact Bool.false_ne_true)]
  rfl

theorem emitP_empty {g : Dep → ParsedPackage} {p : ParsedPackage} (h : p.deps.isEmpty = true)
    (fuel : Nat) : emitP g fuel p = [] := by
  cases fuel with
  | zero => rw [emitP, if_pos h]
  | succ f => rw [emitP, if_pos h]

theorem emitP_succ {g : Dep → ParsedPackage} {p : ParsedPackage} (h : p.deps.isEmpty = false)
    (f : Nat) : emitP g (Nat.succ f) p = emitL g f p.deps := by
  rw [emitP, if_neg (by rw [h]; exact Bool.false_ne_true)]
  rfl

theorem visP_empty {tagf : Dep → String} {g : Dep → ParsedPackage} {p : ParsedPackage}
    (h : p.deps.isEmpty = true) (fuel : Nat) : visP tagf g fuel p = [] := by
  cases fuel with
  | zero => rw [visP, if_pos h]
  | succ f => rw [visP, if_pos h]

theorem visP_succ {tagf : Dep → String} {g : Dep → ParsedPackage} {p : ParsedPackage}
    (h : p.deps.isEmpty = false) (f : Nat) :
    visP tagf g (Nat.succ f) p = visL tagf g f p.deps := by
  rw [visP, if_neg (by rw [h]; exact Bool.false_ne_true)]
  rfl

theorem resolveAllDeps_empty {w : World} {p : ParsedPackage} (h : p.deps.isEmpty = true)
    (fuel : Nat) (s : MState) : Manager.resolveAllDeps w fuel s p = (RunRes.ok s, []) := by
  cases fuel with
  | zero => rw [Manager.resolveAllDeps, if_pos h]
  | succ f => rw [Manager.resolveAllDeps, if_pos h]

theorem resolveAllDeps_zero {w : World} {p : ParsedPackage} (h : p.deps.isEmpty = false)
    (s : MState) : Manager.resolveAllDeps w 0 s p = (RunRes.gas, []) := by
  rw [Manager.resolveAllDeps, if_neg (by rw [h]; exact Bool.false_ne_true)]

theorem resolveAllDeps_succ {w : World} {p : ParsedPackage} (h : p.deps.isEmpty = false)
    (f : Nat) (s : MState) :
    Manager.resolveAllDeps w (Nat.succ f) s p =
      Manager.resolveDepsLoop w (Manager.resolveAllDeps w f) s p.deps := by
  rw [Manager.resolveAllDeps, if_neg (by rw [h]; exact Bool.false_ne_true)]

theorem resolveDepsLoop_nil {w : World}
    {recurse : MState → ParsedPackage → RunRes MState × List Event} {s : MState} :
    Manager.resolveDepsLoop w recurse s [] = (RunRes.ok s, []) := by
  rw [Manager.resolveDepsLoop]

/-- The master lemma: under a good world and a consistent cache, a
`resolveAllDeps` run succeeds exactly when its pure mirror `okAtP` allows
the fuel, in which case the accumulator grows by `emitP`, the visited
identities of `visP` all end up cached, and no fetch happens if they were
all cached before; with insufficient fuel the run ends in `gas`. -/
theorem resolveAllDeps_master {w : World} {tagf : Dep → String} {pkgOf : Dep → ParsedPackage}
    (hw : GoodWorld w tagf pkgOf) :
    ∀ fuel : Nat, ∀ p : ParsedPackage, ∀ s : MState, CacheGood pkgOf s.cache →
      (okAtP (retOf tagf pkgOf) fuel p = true →
        ∃ s' ev, Manager.resolveAllDeps w fuel s p = (RunRes.ok s', ev) ∧
          AllGood pkgOf s s' (emitP (retOf tagf pkgOf) fuel p)
            (visP tagf (retOf tagf pkgOf) fuel p) ev) ∧
      (okAtP (retOf tagf pkgOf) fuel p = false →
        (Manager.resolveAllDeps w fuel s p).1 = RunRes.gas) := by
  intro fuel
  induction fuel with
  | zero =>
    intro p s hc
    constructor
    · intro hok
      rcases he : p.deps.isEmpty with hfalse | htrue
      · rw [okAtP_zero he] at hok
        exact Bool.noConfusion hok
      · refine ⟨s, [], resolveAllDeps_empty he 0 s, ?_⟩
        rw [emitP_empty he, visP_empty he]
        exact ⟨(List.append_nil _).symm, hc, fun k hk => hk,
          fun k hk => absurd hk (List.not_mem_nil k), fun _ => fetchFree_nil⟩
    · intro hbad
      rcases he : p.deps.isEmpty with hfalse | htrue
      · rw [resolveAllDeps_zero he]
      · rw [okAtP_empty he] at hbad
        exact Bool.noConfusion hbad
  | succ f ih =>
    have loopLem : ∀ ds : List Dep, ∀ s : MState, CacheGood pkgOf s.cache →
        (okAtL (retOf tagf pkgOf) f ds = true →
          ∃ s' ev, Manager.resolveDepsLoop w (Manager.resolveAllDeps w f) s ds =
              (RunRes.ok s', ev) ∧
            AllGood pkgOf s s' (emitL (retOf tagf pkgOf) f ds)
              (visL tagf (retOf tagf pkgOf) f ds) ev) ∧
        (okAtL (retOf tagf pkgOf) f ds = false →
          (Manager.resolveDepsLoop w (Manager.resolveAllDeps w f) s ds).1 = RunRes.gas) := by
      intro ds
      induction ds with
      | nil =>
        intro s hc
        constructor
        · intro _
          refine ⟨s, [], resolveDepsLoop_nil, ?_⟩
          refine ⟨(List.append_nil _).symm, hc, fun k hk => hk, ?_, fun _ => fetchFree_nil⟩
          intro k hk
          simp [visL] at hk
        · intro hbad
          simp [okAtL] at hbad
      | cons d rest ihds =>
        intro s hc
        obtain ⟨s1, ev1, hret, hacc1, hcg1, hmono1, hvis1, hff1⟩ := retrievePkg_good hw d hc
        have hc2 : CacheGood pkgOf
            ({ s1 with acc := s1.acc ++ [retOf tagf pkgOf d] } : MState).cache := hcg1
        have hall2 : AllGood pkgOf s { s1 with acc := s1.acc ++ [retOf tagf pkgOf d] }
            [retOf tagf pkgOf d] [finDep tagf d] ev1 := by
          refine ⟨?_, hcg1, hmono1, ?_, ?_⟩
          · show s1.acc ++ [retOf tagf pkgOf d] = s.acc ++ [retOf tagf pkgOf d]
            rw [hacc1]
          · intro k hk
            rcases List.mem_singleton.mp hk with rfl
            exact hvis1
          · intro hpre
            exact hff1 (hpre (finDep tagf d) (List.mem_singleton.mpr rfl))
        by_cases hokd : okAtP (retOf tagf pkgOf) f (retOf tagf pkgOf d) = true
        · obtain ⟨s3, ev2, hrun, hall3⟩ :=
            (ih (retOf tagf pkgOf d) { s1 with acc := s1.acc ++ [retOf tagf pkgOf d] } hc2).1 hokd
          constructor
          · intro hok
            rw [okAtL, List.all_cons, Bool.and_eq_true] at hok
            obtain ⟨-, hokrest⟩ := hok
            obtain ⟨s4, ev3, hloop, hall4⟩ := (ihds s3 hall3.2.1).1 hokrest
            refine ⟨s4, ev1 ++ ev2 ++ ev3, ?_, ?_⟩
            · simp only [Manager.resolveDepsLoop, hret, hrun, hloop]
            · have h14 := AllGood.trans (AllGood.trans hall2 hall3) hall4
              have hemit : ([retOf tagf pkgOf d] ++
                  emitP (retOf tagf pkgOf) f (retOf tagf pkgOf d)) ++
                  emitL (retOf tagf pkgOf) f rest = emitL (retOf tagf pkgOf) f (d :: rest) := rfl
              have hvis : ([finDep tagf d] ++
                  visP tagf (retOf tagf pkgOf) f (retOf tagf pkgOf d)) ++
                  visL tagf (retOf tagf pkgOf) f rest =
                  visL tagf (retOf tagf pkgOf) f (d :: rest) := rfl
              rw [hemit, hvis] at h14
              exact h14
          · intro hbad
            rw [okAtL, List.all_cons] at hbad
            have hokrest : okAtL (retOf tagf pkgOf) f rest = false := by
              rcases hx : okAtL (retOf tagf pkgOf) f rest with hfalse | htrue
              · rfl
              · rw [okAtL] at hx
                rw [hokd, hx] at hbad
                simp at hbad
            rcases hloop : Manager.resolveDepsLoop w (Manager.resolveAllDeps w f) s3 rest
              with ⟨rr, ev3⟩
            have hrr : rr = RunRes.gas := by
              have := (ihds s3 hall3.2.1).2 hokrest
              rw [hloop] at this
              exact this
            subst hrr
            simp only [Manager.resolveDepsLoop, hret, hrun, hloop]
        · have hokd' : okAtP (retOf tagf pkgOf) f (retOf tagf pkgOf d) = false :=
            Bool.eq_false_iff.mpr hokd
          have hgas := (ih (retOf tagf pkgOf d)
            { s1 with acc := s1.acc ++ [retOf tagf pkgOf d] } hc2).2 hokd'
          rcases hrun : Manager.resolveAllDeps w f
              { s1 with acc := s1.acc ++ [retOf tagf pkgOf d] } (retOf tagf pkgOf d)
            with ⟨r, ev2⟩
          have hr : r = RunRes.gas := by
            rw [hrun] at hgas
            exact hgas
          subst hr
          constructor
          · intro hok
            rw [okAtL, List.all_cons, Bool.and_eq_true] at hok
            exact absurd hok.1 (by rw [hokd']; exact Bool.false_ne_true)
          · intro _
            simp only [Manager.resolveDepsLoop, hret, hrun]
    intro p s hc
    constructor
    · intro hok
      rcases he : p.deps.isEmpty with hfalse | htrue
      · rw [okAtP_succ he] at hok
        obtain ⟨s', ev, hloop, hall⟩ := (loopLem p.deps s hc).1 hok
        refine ⟨s', ev, ?_, ?_⟩
        · rw [resolveAllDeps_succ he, hloop]
        · rw [emitP_succ he, visP_succ he]
          exact hall
      · refine ⟨s, [], resolveAllDeps_empty he _ s, ?_⟩
        rw [emitP_empty he, visP_empty he]
        exact ⟨(List.append_nil _).symm, hc, fun k hk => hk,
          fun k hk => absurd hk (List.not_mem_nil k), fun _ => fetchFree_nil⟩
    · intro hbad
      rcases he : p.deps.isEmpty with hfalse | htrue
      · rw [okAtP_succ he] at hbad
        rw [resolveAllDeps_succ he]
        exact (loopLem p.deps s hc).2 hbad
      · rw [okAtP_empty he] at hbad
        exact Bool.noConfusion hbad

/-- The resolved identity `Resolve` populates on success: the caller's
package reference with the root package's version and type. -/
def udOf (d : Dep) (p : ParsedPackage) : Dep :=
  { pkg := d.pkg, constraints := p.version, dtype := p.ptype }

/-- `Resolve` under a good world: with enough fuel it returns the identity
populated from the root package and appends the depth-first emission to the
accumulator; with too little fuel it runs out of gas. -/
theorem Resolve_good {w : World} {tagf : Dep → String} {pkgOf : Dep → ParsedPackage}
    (hw : GoodWorld w tagf pkgOf) (fuel : Nat) (d : Dep) {s : MState}
    (hc : CacheGood pkgOf s.cache) :
    (okAtP (retOf tagf pkgOf) fuel (retOf tagf pkgOf d) = true →
      ∃ s' ev, Manager.Resolve w fuel s d =
        (RunRes.ok (udOf d (retOf tagf pkgOf d), s'.acc, s'), ev) ∧
        AllGood pkgOf s s'
          (retOf tagf pkgOf d :: emitP (retOf tagf pkgOf) fuel (retOf tagf pkgOf d))
          (finDep tagf d :: visP tagf (retOf tagf pkgOf) fuel (retOf tagf pkgOf d)) ev) ∧
    (okAtP (retOf tagf pkgOf) fuel (retOf tagf pkgOf d) = false →
      (Manager.Resolve w fuel s d).1 = RunRes.gas) := by
  obtain ⟨s1, ev1, hret, hacc1, hcg1, hmono1, hvis1, hff1⟩ := retrievePkg_good hw d hc
  have hc2 : CacheGood pkgOf
      ({ s1 with acc := s1.acc ++ [retOf tagf pkgOf d] } : MState).cache := hcg1
  have hall2 : AllGood pkgOf s { s1 with acc := s1.acc ++ [retOf tagf pkgOf d] }
      [retOf tagf pkgOf d] [finDep tagf d] ev1 := by
    refine ⟨?_, hcg1, hmono1, ?_, ?_⟩
    · show s1.acc ++ [retOf tagf pkgOf d] = s.acc ++ [retOf tagf pkgOf d]
      rw [hacc1]
    · intro k hk
      rcases List.mem_singleton.mp hk with rfl
      exact hvis1
    · intro hpre
      exact hff1 (hpre (finDep tagf d) (List.mem_singleton.mpr rfl))
  constructor
  · intro hok
    obtain ⟨s3, ev2, hrun, hall3⟩ := (resolveAllDeps_master hw fuel (retOf tagf pkgOf d)
      { s1 with acc := s1.acc ++ [retOf tagf pkgOf d] } hc2).1 hok
    refine ⟨s3, ev1 ++ ev2, ?_, ?_⟩
    · simp only [Manager.Resolve, hret, hrun, udOf]
    · exact AllGood.trans hall2 hall3
  · intro hbad
    have hgas := (resolveAllDeps_master hw fuel (retOf tagf pkgOf d)
      { s1 with acc := s1.acc ++ [retOf tagf pkgOf d] } hc2).2 hbad
    rcases hrun : Manager.resolveAllDeps w fuel
        { s1 with acc := s1.acc ++ [retOf tagf pkgOf d] } (retOf tagf pkgOf d) with ⟨r, ev2⟩
    have hr : r = RunRes.gas := by
      rw [hrun] at hgas
      exact hgas
    subst hr
    simp only [Manager.Resolve, hret, hrun]

/-- Completeness: every package reachable from `d` along declared-dependency
edges occurs in the depth-first emission of a run whose fuel suffices. -/
theorem reaches_mem {g : Dep → ParsedPackage} {d : Dep} {q : ParsedPackage}
    (h : Reaches g d q) :
    ∀ fuel, okAtP g fuel (g d) = true → q ∈ g d :: emitP g fuel (g d) := by
  induction h with
  | here d =>
    intro fuel _
    exact List.mem_cons_self _ _
  | step d d2 q hmem hr ih =>
    intro fuel hok
    have hne : (g d).deps.isEmpty = false := by
      rcases hx : (g d).deps with - | ⟨a, l⟩
      · rw [hx] at hmem
        exact absurd hmem (List.not_mem_nil _)
      · rfl
    cases fuel with
    | zero =>
      rw [okAtP_zero hne] at hok
      exact Bool.noConfusion hok
    | succ f =>
      rw [okAtP_succ hne, okAtL, List.all_eq_true] at hok
      have hok2 : okAtP g f (g d2) = true := by simpa using hok d2 hmem
      refine List.mem_cons_of_mem _ ?_
      rw [emitP_succ hne, emitL]
      exact List.mem_flatMap.mpr ⟨d2, hmem, ih f hok2⟩

/-- A rank function decreasing along declared-dependency edges bounds the
fuel needed by the pure success mirror: the traversal from `d` succeeds at
any fuel of at least `rank d`. -/
theorem okAtP_of_rank {g : Dep → ParsedPackage} {rank : Dep → Nat}
    (hr : ∀ d d2, d2 ∈ (g d).deps → rank d2 < rank d) :
    ∀ fuel d, rank d ≤ fuel → okAtP g fuel (g d) = true := by
  intro fuel
  induction fuel using Nat.strong_induction_on with
  | _ fuel ih =>
    intro d hrank
    rcases he : (g d).deps.isEmpty with hfalse | htrue
    · obtain ⟨d2, hd2⟩ : ∃ x, x ∈ (g d).deps := by
        rcases hx : (g d).deps with - | ⟨a, l⟩
        · rw [hx] at he
          simp at he
        · exact ⟨a, List.mem_cons_self _ _⟩
      have hlt := hr d d2 hd2
      cases fuel with
      | zero => omega
      | succ f =>
        rw [okAtP_succ he, okAtL, List.all_eq_true]
        intro d3 hd3
        have h3 := hr d d3 hd3
        simpa using ih f (Nat.lt_succ_self f) d3 (by omega)
    · exact okAtP_empty he _

/-! ### Unconditional accumulator growth (any world) -/

theorem resolveAllDeps_acc {w : World} :
    ∀ fuel : Nat, ∀ p : ParsedPackage, ∀ s s' : MState, ∀ ev : List Event,
      Manager.resolveAllDeps w fuel s p = (RunRes.ok s', ev) → ∃ t, s'.acc = s.acc ++ t := by
  intro fuel
  induction fuel with
  | zero =>
    intro p s s' ev h
    rcases he : p.deps.isEmpty with hfalse | htrue
    · rw [resolveAllDeps_zero he] at h
      simp at h
    · rw [resolveAllDeps_empty he] at h
      simp only [Prod.mk.injEq, RunRes.ok.injEq] at h
      exact ⟨[], by rw [← h.1, List.append_nil]⟩
  | succ f ih =>
    have loopAcc : ∀ ds : List Dep, ∀ s s' : MState, ∀ ev : List Event,
        Manager.resolveDepsLoop w (Manager.resolveAllDeps w f) s ds = (RunRes.ok s', ev) →
        ∃ t, s'.acc = s.acc ++ t := by
      intro ds
      induction ds with
      | nil =>
        intro s s' ev h
        rw [resolveDepsLoop_nil] at h
        simp only [Prod.mk.injEq, RunRes.ok.injEq] at h
        exact ⟨[], by rw [← h.1, List.append_nil]⟩
      | cons d rest ihds =>
        intro s s' ev h
        rcases hret : Manager.retrievePkg w s d with ⟨r0, ev1⟩
        rcases r0 with e | pp
        · simp only [Manager.resolveDepsLoop, hret] at h
          simp at h
        · obtain ⟨p1, s1⟩ := pp
          have hs1 : s1.acc = s.acc := retrievePkg_acc hret
          rcases hrun : Manager.resolveAllDeps w f { s1 with acc := s1.acc ++ [p1] } p1
            with ⟨r2, ev2⟩
          rcases r2 with s3 | e2 | -
          · rcases hloop : Manager.resolveDepsLoop w (Manager.resolveAllDeps w f) s3 rest
              with ⟨r3, ev3⟩
            simp only [Manager.resolveDepsLoop, hret, hrun, hloop] at h
            simp only [Prod.mk.injEq] at h
            obtain ⟨h3, -⟩ := h
            rw [h3] at hloop
            obtain ⟨t3, ht3⟩ := ihds s3 s' ev3 hloop
            obtain ⟨t2, ht2⟩ := ih p1 _ s3 ev2 hrun
            refine ⟨[p1] ++ t2 ++ t3, ?_⟩
            rw [ht3, ht2]
            show s1.acc ++ [p1] ++ t2 ++ t3 = s.acc ++ ([p1] ++ t2 ++ t3)
            rw [hs1, List.append_assoc, List.append_assoc, List.append_assoc]
          · simp only [Manager.resolveDepsLoop, hret, hrun] at h
            simp at h
          · simp only [Manager.resolveDepsLoop, hret, hrun] at h
            simp at h
    intro p s s' ev h
    rcases he : p.deps.isEmpty with hfalse | htrue
    · rw [resolveAllDeps_succ he] at h
      exact loopAcc p.deps s s' ev h
    · rw [resolveAllDeps_empty he] at h
      simp only [Prod.mk.injEq, RunRes.ok.injEq] at h
      exact ⟨[], by rw [← h.1, List.append_nil]⟩

/-- `Resolve` returns the Manager's own accumulator, which only ever grows:
the returned package list extends the pre-call accumulator. -/
theorem Resolve_acc {w : World} {fuel : Nat} {s : MState} {d : Dep} {ud : Dep}
    {pkgs : List ParsedPackage} {s' : MState} {ev : List Event}
    (h : Manager.Resolve w fuel s d = (RunRes.ok (ud, pkgs, s'), ev)) :
    s'.acc = pkgs ∧ ∃ t, pkgs = s.acc ++ t := by
  rcases hret : Manager.retrievePkg w s d with ⟨r0, ev1⟩
  rcases r0 with e | pp
  · simp only [Manager.Resolve, hret] at h
    simp only [Prod.mk.injEq, RunRes.ok.injEq] at h
    obtain ⟨⟨hud, hpk, hs⟩, hev⟩ := h
    exact ⟨by rw [← hs, ← hpk], [], by rw [← hpk, List.append_nil]⟩
  · obtain ⟨p1, s1⟩ := pp
    have hs1 : s1.acc = s.acc := retrievePkg_acc hret
    rcases hrun : Manager.resolveAllDeps w fuel { s1 with acc := s1.acc ++ [p1] } p1
      with ⟨r2, ev2⟩
    rcases r2 with s3 | e2 | -
    · simp only [Manager.Resolve, hret, hrun] at h
      simp only [Prod.mk.injEq, RunRes.ok.injEq] at h
      obtain ⟨⟨hud, hpk, hs⟩, hev⟩ := h
      obtain ⟨t2, ht2⟩ := resolveAllDeps_acc fuel p1 _ s3 ev2 hrun
      refine ⟨by rw [← hs, ← hpk], [p1] ++ t2, ?_⟩
      rw [← hpk, ht2]
      show s1.acc ++ [p1] ++ t2 = s.acc ++ ([p1] ++ t2)
      rw [hs1, List.append_assoc]
    · simp only [Manager.Resolve, hret, hrun] at h
      simp at h
    · simp only [Manager.Resolve, hret, hrun] at h
      simp at h

/-! ### View lemmas for the snapshot merge -/

theorem viewLookup_viewInsert (v : List (String × Nat)) (k1 k : String) (x : Nat) :
    viewLookup (viewInsert v k1 x) k = if k1 = k then some x else viewLookup v k := by
  induction v with
  | nil =>
    simp [viewInsert, viewLookup]
  | cons e rest ih =>
    rw [viewInsert]
    by_cases h1 : e.1 = k1
    · rw [if_pos h1]
      simp only [viewLookup]
      by_cases hk : k1 = k
      · rw [if_pos hk, if_pos hk]
      · rw [if_neg hk, if_neg hk, if_neg (fun h : e.1 = k => hk (h1.symm.trans h))]
    · rw [if_neg h1]
      simp only [viewLookup]
      by_cases h2 : e.1 = k
      · have hk : ¬ k1 = k := fun h => h1 (h2.trans h.symm)
        rw [if_pos h2, if_neg hk, if_pos h2]
      · rw [if_neg h2, ih]
        by_cases hk : k1 = k
        · rw [if_pos hk, if_pos hk]
        · rw [if_neg hk, if_neg hk, if_neg h2]

theorem viewLookup_insertAll (L : List (String × Nat)) :
    ∀ v k, viewLookup (insertAll v L) k =
      match lastVal L k with
      | some x => some x
      | none => viewLookup v k := by
  induction L with
  | nil =>
    intro v k
    rw [insertAll, lastVal]
  | cons e rest ih =>
    intro v k
    rw [insertAll, ih, lastVal]
    rcases hx : lastVal rest k with - | r
    · simp only []
      rw [viewLookup_viewInsert]
      by_cases hk : e.1 = k
      · rw [if_pos hk, if_pos hk]
      · rw [if_neg hk, if_neg hk]
    · rfl

theorem insertAll_append (L1 L2 : List (String × Nat)) :
    ∀ v, insertAll v (L1 ++ L2) = insertAll (insertAll v L1) L2 := by
  induction L1 with
  | nil =>
    intro v
    rw [List.nil_append, insertAll]
  | cons e rest ih =>
    intro v
    rw [List.cons_append, insertAll, insertAll, ih]

theorem insertPkgs_eq (acc : List ParsedPackage) :
    ∀ v, insertPkgs v acc = insertAll v (flatVals acc) := by
  induction acc with
  | nil =>
    intro v
    rw [insertPkgs, flatVals]
    rfl
  | cons p rest ih =>
    intro v
    rw [insertPkgs, ih,
      show flatVals (p :: rest) = p.validators ++ flatVals rest from rfl,
      insertAll_append]

theorem lastVal_append (L1 L2 : List (String × Nat)) (k : String) :
    lastVal (L1 ++ L2) k =
      match lastVal L2 k with
      | some x => some x
      | none => lastVal L1 k := by
  induction L1 with
  | nil =>
    rw [List.nil_append]
    rcases h : lastVal L2 k with - | x
    · rw [lastVal]
    · rfl
  | cons e rest ih =>
    rw [List.cons_append, lastVal, ih, lastVal]
    rcases h : lastVal L2 k with - | x
    · rfl
    · rfl

theorem flatVals_append (a b : List ParsedPackage) :
    flatVals (a ++ b) = flatVals a ++ flatVals b := by
  rw [flatVals, flatVals, flatVals, List.flatMap_append]

/-- Invariant of the `Snapshot` loop: after each round, looking a key up in
the view yields the value of the key's last writer in the accumulator built
so far. -/
theorem snapshotLoop_lastVal {w : World} {fuel : Nat} :
    ∀ ds : List Dep, ∀ s : MState, ∀ view : List (String × Nat),
      (∀ k, viewLookup view k = lastVal (flatVals s.acc) k) →
      ∀ view' s' ev, Manager.snapshotLoop w fuel s ds view = (RunRes.ok (view', s'), ev) →
      ∀ k, viewLookup view' k = lastVal (flatVals s'.acc) k := by
  intro ds
  induction ds with
  | nil =>
    intro s view hinv view' s' ev h k
    rw [Manager.snapshotLoop] at h
    simp only [Prod.mk.injEq, RunRes.ok.injEq] at h
    obtain ⟨⟨hv, hs⟩, -⟩ := h
    rw [← hv, ← hs]
    exact hinv k
  | cons d rest ih =>
    intro s view hinv view' s' ev h k
    rcases hres : Manager.Resolve w fuel s d with ⟨r0, ev1⟩
    rcases r0 with a | e | -
    · obtain ⟨ud, acc1, s1⟩ := a
      rcases hloop : Manager.snapshotLoop w fuel s1 rest (insertPkgs view acc1) with ⟨r2, ev2⟩
      simp only [Manager.snapshotLoop, hres, hloop] at h
      simp only [Prod.mk.injEq] at h
      obtain ⟨h2, -⟩ := h
      rw [h2] at hloop
      obtain ⟨hacc, t, ht⟩ := Resolve_acc hres
      have hinv2 : ∀ k, viewLookup (insertPkgs view acc1) k = lastVal (flatVals s1.acc) k := by
        intro k2
        rw [insertPkgs_eq, viewLookup_insertAll, hacc]
        rcases h3 : lastVal (flatVals acc1) k2 with - | x
        · have hnone : lastVal (flatVals s.acc) k2 = none := by
            rw [ht, flatVals_append, lastVal_append] at h3
            rcases h4 : lastVal (flatVals t) k2 with - | y
            · rw [h4] at h3
              exact h3
            · rw [h4] at h3
              exact Option.noConfusion h3
          rw [hinv k2, hnone]
        · rfl
      exact ih s1 (insertPkgs view acc1) hinv2 view' s' ev2 hloop k
    · simp only [Manager.snapshotLoop, hres] at h
      simp at h
    · simp only [Manager.snapshotLoop, hres] at h
      simp at h

/-! ### Concrete scenario worlds -/

/-- A fresh Manager state: empty cache, empty accumulator. -/
def mstate0 : MState := { cache := [], acc := [] }

theorem cacheGood_nil (pkgOf : Dep → ParsedPackage) : CacheGood pkgOf [] := by
  intro d p h
  rw [cacheGet] at h
  exact Except.noConfusion h

/-- The root dependency `A@^1.0` of the spec's scenario. -/
def depA : Dep := { pkg := "A", constraints := "^1.0", dtype := "" }

/-- The declared sub-dependency `B@^2.0`. -/
def depB0 : Dep := { pkg := "B", constraints := "^2.0", dtype := "" }

/-- `B@2.3.0` with digest `d2`, no dependencies. -/
def pkgB : ParsedPackage :=
  { ptype := "Provider", version := "2.3.0", digest := "d2", deps := [],
    validators := [("T.B", 2)] }

/-- `A@1.2.0` with digest `d1`, declaring `B@^2.0`. -/
def pkgA : ParsedPackage :=
  { ptype := "Configuration", version := "1.2.0", digest := "d1", deps := [depB0],
    validators := [("T.A", 1)] }

/-- Version assignment of the scenario registry. -/
def tagAB (d : Dep) : String := if d.pkg = "A" then "1.2.0" else "2.3.0"

/-- Package served by the scenario registry. -/
def pkgOfAB (d : Dep) : ParsedPackage := if d.pkg = "A" then pkgA else pkgB

/-- The scenario registry: constraints always resolve, fetches always
succeed, and digests agree with the served packages. -/
def wAB : World :=
  { resolveTag := fun d => Except.ok (tagAB d)
  , resolveDigest := fun d => Except.ok (pkgOfAB d).digest
  , resolveImage := fun d => Except.ok (d.constraints, 0)
  , fromImage := fun n t _ => Except.ok (pkgOfAB { pkg := n, constraints := t, dtype := "" }) }

theorem goodWorld_wAB : GoodWorld wAB tagAB pkgOfAB := by
  refine ⟨fun d => rfl, fun d => ⟨d.constraints, 0, rfl, ?_⟩, fun d => rfl⟩
  show Except.ok (pkgOfAB { pkg := d.pkg, constraints := d.constraints, dtype := "" }) =
    Except.ok (pkgOfAB d)
  rw [pkgOfAB, pkgOfAB]

/-- A registry in which only `A` resolves: retrieving any other package
reference fails at constraint finalization. -/
def wErr : World :=
  { resolveTag := fun d =>
      if d.pkg = "A" then Except.ok "1.2.0" else Except.error Err.resolutionError
  , resolveDigest := fun _ => Except.ok "d1"
  , resolveImage := fun d => Except.ok (d.constraints, 0)
  , fromImage := fun _ _ _ => Except.ok pkgA }

/-- Root of the cyclic scenario: `A` depends on `B`. -/
def cdepA : Dep := { pkg := "A", constraints := "^1.0", dtype := "" }

/-- The other half of the cycle: `B` depends on `A`. -/
def cdepB : Dep := { pkg := "B", constraints := "^1.0", dtype := "" }

/-- Package `A` of the cycle. -/
def cpkgA : ParsedPackage :=
  { ptype := "Configuration", version := "1.0.0", digest := "dA", deps := [cdepB],
    validators := [] }

/-- Package `B` of the cycle. -/
def cpkgB : ParsedPackage :=
  { ptype := "Configuration", version := "1.0.0", digest := "dB", deps := [cdepA],
    validators := [] }

/-- Version assignment of the cyclic registry. -/
def tagC (_ : Dep) : String := "1.0.0"

/-- Package served by the cyclic registry: `A` and `B` depend on each other. -/
def pkgOfC (d : Dep) : ParsedPackage := if d.pkg = "A" then cpkgA else cpkgB

/-- The cyclic registry world. -/
def wCyc : World :=
  { resolveTag := fun d => Except.ok (tagC d)
  , resolveDigest := fun d => Except.ok (pkgOfC d).digest
  , resolveImage := fun d => Except.ok (d.constraints, 0)
  , fromImage := fun n t _ => Except.ok (pkgOfC { pkg := n, constraints := t, dtype := "" }) }

theorem goodWorld_wCyc : GoodWorld wCyc tagC pkgOfC := by
  refine ⟨fun d => rfl, fun d => ⟨d.constraints, 0, rfl, ?_⟩, fun d => rfl⟩
  show Except.ok (pkgOfC { pkg := d.pkg, constraints := d.constraints, dtype := "" }) =
    Except.ok (pkgOfC d)
  rw [pkgOfC, pkgOfC]

/-- On the cyclic registry the pure success mirror fails at every fuel
bound: the traversal of the `A`–`B` cycle never finishes. -/
theorem okAtP_cyc_false : ∀ fuel : Nat,
    okAtP (retOf tagC pkgOfC) fuel (retOf tagC pkgOfC cdepA) = false ∧
    okAtP (retOf tagC pkgOfC) fuel (retOf tagC pkgOfC cdepB) = false := by
  intro fuel
  induction fuel with
  | zero => exact ⟨by decide, by decide⟩
  | succ f ih =>
    constructor
    · have he : (retOf tagC pkgOfC cdepA).deps.isEmpty = false := by decide
      rw [okAtP_succ he, okAtL, show (retOf tagC pkgOfC cdepA).deps = [cdepB] from by decide,
        List.all_cons, ih.2]
      rfl
    · have he : (retOf tagC pkgOfC cdepB).deps.isEmpty = false := by decide
      rw [okAtP_succ he, okAtL, show (retOf tagC pkgOfC cdepB).deps = [cdepA] from by decide,
        List.all_cons, ih.1]
      rfl

/-- The finalized identity `A@1.2.0`. -/
def dfA : Dep := { pkg := "A", constraints := "1.2.0", dtype := "" }

/-- The finalized identity `B@2.3.0`. -/
def dfB : Dep := { pkg := "B", constraints := "2.3.0", dtype := "" }

/-! ### Claims -/

/-- C1: In the single-dependency resolution path (`Resolve`), a failure
while retrieving the root package is swallowed: the call returns success
(a nil error) with the Manager's current accumulator (empty on a fresh
Manager), while the identical retrieval failure occurring for a transitive
dependency inside the recursion is propagated to the caller as a hard
error. -/
theorem c1_root_error_swallowed_transitive_propagated :
    (∀ (w : World) (s : MState) (d : Dep) (fuel : Nat) (er : Err) (ev : List Event),
      Manager.retrievePkg w s d = (Except.error er, ev) →
      Manager.Resolve w fuel s d = (RunRes.ok (emptyDep, s.acc, s), ev)) ∧
    (∀ (w : World) (s : MState) (d : Dep) (e : ParsedPackage) (s1 : MState) (ev : List Event)
      (d1 : Dep) (rest : List Dep) (er2 : Err) (ev2 : List Event) (f : Nat),
      Manager.retrievePkg w s d = (Except.ok (e, s1), ev) →
      e.deps = d1 :: rest →
      Manager.retrievePkg w { s1 with acc := s1.acc ++ [e] } d1 = (Except.error er2, ev2) →
      Manager.Resolve w (Nat.succ f) s d = (RunRes.err er2, ev ++ ev2)) := by
  constructor
  · intro w s d fuel er ev h
    simp only [Manager.Resolve, h]
  · intro w s d e s1 ev d1 rest er2 ev2 f h hdeps h1
    have he : e.deps.isEmpty = false := by rw [hdeps]; rfl
    simp only [Manager.Resolve, h, resolveAllDeps_succ he, hdeps, Manager.resolveDepsLoop, h1]

theorem c1_witness :
    Manager.Resolve wErr 1 mstate0 depB0 =
      (RunRes.ok (emptyDep, mstate0.acc, mstate0), [Event.tag depB0]) ∧
    Manager.Resolve wErr 1 mstate0 depA =
      (RunRes.err Err.resolutionError,
        [Event.tag depA, Event.get dfA, Event.fetch dfA, Event.marshal dfA,
         Event.store dfA, Event.tag depB0]) := by
  constructor
  · exact c1_root_error_swallowed_transitive_propagated.1 wErr mstate0 depB0 1
      Err.resolutionError [Event.tag depB0] (by decide)
  · exact c1_root_error_swallowed_transitive_propagated.2 wErr mstate0 depA pkgA
      { cache := [(dfA, pkgA)], acc := [] }
      [Event.tag depA, Event.get dfA, Event.fetch dfA, Event.marshal dfA, Event.store dfA]
      depB0 [] Err.resolutionError [Event.tag depB0] 0 (by decide) (by decide) (by decide)

/-- C5: a cache-miss (`NotFound`) outcome from the cache's get is fully
absorbed and converted into a fetch-marshal-store action whose package is
returned successfully; and `retrievePkg` never reports `NotFound` to the
caller unless one of the external resolver or marshaler calls itself
returned it. -/
theorem c5_notFound_absorbed_into_fetch_and_store :
    (∀ (w : World) (s : MState) (d : Dep) (v t : String) (i : Nat) (q : ParsedPackage),
      w.resolveTag d = Except.ok v →
      cacheGet s.cache { d with constraints := v } = Except.error Err.notFound →
      w.resolveImage { d with constraints := v } = Except.ok (t, i) →
      w.fromImage d.pkg t i = Except.ok q →
      Manager.retrievePkg w s d =
        (Except.ok (q, { s with cache := cacheStore s.cache { d with constraints := v } q }),
          [Event.tag d, Event.get { d with constraints := v },
           Event.fetch { d with constraints := v }, Event.marshal { d with constraints := v },
           Event.store { d with constraints := v }])) ∧
    (∀ (w : World) (s : MState) (d : Dep),
      (∀ d2, w.resolveTag d2 ≠ Except.error Err.notFound) →
      (∀ d2, w.resolveImage d2 ≠ Except.error Err.notFound) →
      (∀ n t i, w.fromImage n t i ≠ Except.error Err.notFound) →
      (∀ d2, w.resolveDigest d2 ≠ Except.error Err.notFound) →
      (Manager.retrievePkg w s d).1 ≠ Except.error Err.notFound) := by
  constructor
  · intro w s d v t i q h1 h2 h3 h4
    exact retrievePkg_missOk h1 h2 h3 h4
  · intro w s d h1 h2 h3 h4 hcon
    rcases retrievePkg_err_inv hcon with h | ⟨d2, h⟩ | ⟨n, t, i, h⟩ | ⟨d2, h⟩
    · exact h1 d h
    · exact h2 d2 h
    · exact h3 n t i h
    · exact h4 d2 h

theorem c5_witness :
    Manager.retrievePkg wAB mstate0 depA =
      (Except.ok (pkgA, { mstate0 with cache := cacheStore mstate0.cache dfA pkgA }),
        [Event.tag depA, Event.get dfA, Event.fetch dfA, Event.marshal dfA, Event.store dfA]) ∧
    (Manager.retrievePkg wAB mstate0 depA).1 ≠ Except.error Err.notFound := by
  constructor
  · exact c5_notFound_absorbed_into_fetch_and_store.1 wAB mstate0 depA "1.2.0" "1.2.0" 0 pkgA
      (by decide) (by decide) (by decide) (by decide)
  · exact c5_notFound_absorbed_into_fetch_and_store.2 wAB mstate0 depA
      (fun d2 h => Except.noConfusion h) (fun d2 h => Except.noConfusion h)
      (fun n t i h => Except.noConfusion h) (fun d2 h => Except.noConfusion h)

/-- C2: on a cache hit the cached package's digest is always compared
against the registry digest (a `resolveDigest` call occurs), the cached
package is served as-is only when the two digests are equal, and — given
the marshaler/registry digest coherence of the spec — the returned
package's digest equals the registry's current digest for the identity. -/
theorem c2_freshness_invariant :
    ∀ (w : World) (s : MState) (d : Dep) (v : String) (pc p : ParsedPackage) (s' : MState)
      (ev : List Event),
      w.resolveTag d = Except.ok v →
      cacheGet s.cache { d with constraints := v } = Except.ok pc →
      Manager.retrievePkg w s d = (Except.ok (p, s'), ev) →
      ∃ D, w.resolveDigest { d with constraints := v } = Except.ok D ∧
        Event.digest { d with constraints := v } ∈ ev ∧
        (Event.fetch { d with constraints := v } ∉ ev → p = pc ∧ pc.digest = D) ∧
        (Coherent w → p.digest = D) := by
  intro w s d v pc p s' ev htag hget h
  obtain ⟨v2, htag2, hcase⟩ := retrievePkg_ok_inv h
  rw [htag] at htag2
  injection htag2 with hv
  subst hv
  rcases hcase with ⟨hmiss, -, -, -⟩ | ⟨hget2, hdig, hs, hev⟩ |
    ⟨pc2, dg, hget2, hdig, hne, ⟨t, i, himg, hmar⟩, hs, hev⟩
  · rw [hget] at hmiss
    exact Except.noConfusion hmiss
  · rw [hget] at hget2
    injection hget2 with hpc
    refine ⟨p.digest, hdig, ?_, ?_, ?_⟩
    · rw [hev]
      simp
    · intro _
      exact ⟨hpc.symm, by rw [hpc]⟩
    · intro _
      rfl
  · rw [hget] at hget2
    injection hget2 with hpc2
    refine ⟨dg, hdig, ?_, ?_, ?_⟩
    · rw [hev]
      simp
    · intro hnofetch
      exact absurd (by rw [hev]; simp) hnofetch
    · intro hco
      have hd := hco { d with constraints := v } t i p himg hmar
      rw [hdig] at hd
      injection hd with h2
      exact h2.symm

theorem c2_witness :
    ∃ D, wAB.resolveDigest { depB0 with constraints := "2.3.0" } = Except.ok D ∧
      Event.digest { depB0 with constraints := "2.3.0" } ∈
        [Event.tag depB0, Event.get dfB, Event.digest dfB] ∧
      (Event.fetch { depB0 with constraints := "2.3.0" } ∉
        [Event.tag depB0, Event.get dfB, Event.digest dfB] → pkgB = pkgB ∧ pkgB.digest = D) ∧
      (Coherent wAB → pkgB.digest = D) :=
  c2_freshness_invariant wAB { cache := [(dfB, pkgB)], acc := [] } depB0 "2.3.0" pkgB pkgB
    { cache := [(dfB, pkgB)], acc := [] } [Event.tag depB0, Event.get dfB, Event.digest dfB]
    (by decide) (by decide) (by decide)

/-- The stale cached copy of `B@2.3.0` used by the C6 scenario. -/
def pkgB0 : ParsedPackage :=
  { ptype := "Provider", version := "2.3.0", digest := "d0", deps := [],
    validators := [("T.B", 2)] }

/-- C6: on a cache hit with matching registry digest, `retrievePkg` makes
no fetch and no marshal call (the trace records only the tag, get and
digest calls) and returns the cached package with the state unchanged; on a
cache hit with a differing digest it re-fetches, re-marshals, overwrites
the cache entry, and `Resolve` returns the new package in the
accumulator. -/
theorem c6_hit_fresh_no_fetch_stale_refetch :
    (∀ (w : World) (s : MState) (d : Dep) (v : String) (p : ParsedPackage),
      w.resolveTag d = Except.ok v →
      cacheGet s.cache { d with constraints := v } = Except.ok p →
      w.resolveDigest { d with constraints := v } = Except.ok p.digest →
      Manager.retrievePkg w s d =
        (Except.ok (p, s),
          [Event.tag d, Event.get { d with constraints := v },
           Event.digest { d with constraints := v }])) ∧
    (∀ (w : World) (fuel : Nat) (s : MState) (d : Dep) (v dg t : String) (i : Nat)
      (p q : ParsedPackage),
      w.resolveTag d = Except.ok v →
      cacheGet s.cache { d with constraints := v } = Except.ok p →
      w.resolveDigest { d with constraints := v } = Except.ok dg →
      p.digest ≠ dg →
      w.resolveImage { d with constraints := v } = Except.ok (t, i) →
      w.fromImage d.pkg t i = Except.ok q →
      q.deps = [] →
      Manager.retrievePkg w s d =
        (Except.ok (q, { s with cache := cacheStore s.cache { d with constraints := v } q }),
          [Event.tag d, Event.get { d with constraints := v },
           Event.digest { d with constraints := v }, Event.fetch { d with constraints := v },
           Event.marshal { d with constraints := v }, Event.store { d with constraints := v }]) ∧
      cacheGet (cacheStore s.cache { d with constraints := v } q) { d with constraints := v } =
        Except.ok q ∧
      Manager.Resolve w fuel s d =
        (RunRes.ok (udOf d q, s.acc ++ [q],
            { cache := cacheStore s.cache { d with constraints := v } q,
              acc := s.acc ++ [q] }),
          [Event.tag d, Event.get { d with constraints := v },
           Event.digest { d with constraints := v }, Event.fetch { d with constraints := v },
           Event.marshal { d with constraints := v }, Event.store { d with constraints := v }])) := by
  constructor
  · intro w s d v p h1 h2 h3
    exact retrievePkg_hitFresh h1 h2 h3
  · intro w fuel s d v dg t i p q h1 h2 h3 h4 h5 h6 h7
    have hret := retrievePkg_staleOk h1 h2 h3 h4 h5 h6
    refine ⟨hret, ?_, ?_⟩
    · rw [cacheGet_cacheStore, if_pos rfl]
    · have he : q.deps.isEmpty = true := by rw [h7]; rfl
      simp only [Manager.Resolve, hret, resolveAllDeps_empty he, udOf, List.append_nil]

theorem c6_witness :
    Manager.retrievePkg wAB { cache := [(dfB, pkgB)], acc := [] } depB0 =
      (Except.ok (pkgB, { cache := [(dfB, pkgB)], acc := [] }),
        [Event.tag depB0, Event.get dfB, Event.digest dfB]) ∧
    (Manager.retrievePkg wAB { cache := [(dfB, pkgB0)], acc := [] } depB0 =
      (Except.ok (pkgB, { cache := cacheStore [(dfB, pkgB0)] dfB pkgB, acc := [] }),
        [Event.tag depB0, Event.get dfB, Event.digest dfB, Event.fetch dfB,
         Event.marshal dfB, Event.store dfB]) ∧
      cacheGet (cacheStore [(dfB, pkgB0)] dfB pkgB) dfB = Except.ok pkgB ∧
      Manager.Resolve wAB 3 { cache := [(dfB, pkgB0)], acc := [] } depB0 =
        (RunRes.ok (udOf depB0 pkgB, [] ++ [pkgB],
            { cache := cacheStore [(dfB, pkgB0)] dfB pkgB, acc := [] ++ [pkgB] }),
          [Event.tag depB0, Event.get dfB, Event.digest dfB, Event.fetch dfB,
           Event.marshal dfB, Event.store dfB])) := by
  constructor
  · exact c6_hit_fresh_no_fetch_stale_refetch.1 wAB { cache := [(dfB, pkgB)], acc := [] }
      depB0 "2.3.0" pkgB (by decide) (by decide) (by decide)
  · exact c6_hit_fresh_no_fetch_stale_refetch.2 wAB 3 { cache := [(dfB, pkgB0)], acc := [] }
      depB0 "2.3.0" "d2" "2.3.0" 0 pkgB0 pkgB (by decide) (by decide) (by decide) (by decide)
      (by decide) (by decide) (by decide)

/-- C8: in every `retrievePkg` run the trace starts with the constraint
finalization (`resolveTag`) call, and every cache lookup, cache store, or
fetch in the rest of the trace is for the finalized identity — the
dependency with its constraint replaced by the concrete resolver-assigned
version.  No identity is cached or fetched under an unfinalized
constraint. -/
theorem c8_finalize_strictly_before_cache_and_fetch :
    ∀ (w : World) (s : MState) (d : Dep) (r : Except Err (ParsedPackage × MState))
      (ev : List Event),
      Manager.retrievePkg w s d = (r, ev) →
      ∃ rest, ev = Event.tag d :: rest ∧
        ∀ d2, (Event.get d2 ∈ rest ∨ Event.store d2 ∈ rest ∨ Event.fetch d2 ∈ rest) →
          ∃ v, w.resolveTag d = Except.ok v ∧ d2 = { d with constraints := v } := by
  intro w s d r ev h
  rcases htag : w.resolveTag d with e | v
  · rw [retrievePkg_tagError htag] at h
    refine ⟨[], (congrArg Prod.snd h).symm, ?_⟩
    intro d2 hd2
    rcases hd2 with h2 | h2 | h2 <;> exact absurd h2 (List.not_mem_nil _)
  · rcases hget : cacheGet s.cache { d with constraints := v } with e | pc
    · have he : e = Err.notFound := cacheGet_error_eq hget
      subst he
      rcases himg : w.resolveImage { d with constraints := v } with e2 | ti
      · rw [retrievePkg_missImgErr htag hget himg] at h
        refine ⟨[Event.get { d with constraints := v }, Event.fetch { d with constraints := v }],
          (congrArg Prod.snd h).symm, ?_⟩
        intro d2 hd2
        rcases hd2 with h2 | h2 | h2 <;> simp at h2 <;> exact ⟨v, rfl, h2⟩
      · obtain ⟨t, i⟩ := ti
        rcases hmar : w.fromImage d.pkg t i with e3 | q
        · rw [retrievePkg_missMarErr htag hget himg hmar] at h
          refine ⟨[Event.get { d with constraints := v },
            Event.fetch { d with constraints := v },
            Event.marshal { d with constraints := v }], (congrArg Prod.snd h).symm, ?_⟩
          intro d2 hd2
          rcases hd2 with h2 | h2 | h2 <;> simp at h2 <;> exact ⟨v, rfl, h2⟩
        · rw [retrievePkg_missOk htag hget himg hmar] at h
          refine ⟨[Event.get { d with constraints := v },
            Event.fetch { d with constraints := v },
            Event.marshal { d with constraints := v },
            Event.store { d with constraints := v }], (congrArg Prod.snd h).symm, ?_⟩
          intro d2 hd2
          rcases hd2 with h2 | h2 | h2 <;> simp at h2 <;> exact ⟨v, rfl, h2⟩
    · rcases hdig : w.resolveDigest { d with constraints := v } with e2 | dg
      · rw [retrievePkg_digestError htag hget hdig] at h
        refine ⟨[Event.get { d with constraints := v },
          Event.digest { d with constraints := v }], (congrArg Prod.snd h).symm, ?_⟩
        intro d2 hd2
        rcases hd2 with h2 | h2 | h2 <;> simp at h2 <;> exact ⟨v, rfl, h2⟩
      · by_cases hdg : pc.digest = dg
        · subst hdg
          rw [retrievePkg_hitFresh htag hget hdig] at h
          refine ⟨[Event.get { d with constraints := v },
            Event.digest { d with constraints := v }], (congrArg Prod.snd h).symm, ?_⟩
          intro d2 hd2
          rcases hd2 with h2 | h2 | h2 <;> simp at h2 <;> exact ⟨v, rfl, h2⟩
        · rcases himg : w.resolveImage { d with constraints := v } with e3 | ti
          · rw [retrievePkg_staleImgErr htag hget hdig hdg himg] at h
            refine ⟨[Event.get { d with constraints := v },
              Event.digest { d with constraints := v },
              Event.fetch { d with constraints := v }], (congrArg Prod.snd h).symm, ?_⟩
            intro d2 hd2
            rcases hd2 with h2 | h2 | h2 <;> simp at h2 <;> exact ⟨v, rfl, h2⟩
          · obtain ⟨t, i⟩ := ti
            rcases hmar : w.fromImage d.pkg t i with e4 | q
            · rw [retrievePkg_staleMarErr htag hget hdig hdg himg hmar] at h
              refine ⟨[Event.get { d with constraints := v },
                Event.digest { d with constraints := v },
                Event.fetch { d with constraints := v },
                Event.marshal { d with constraints := v }], (congrArg Prod.snd h).symm, ?_⟩
              intro d2 hd2
              rcases hd2 with h2 | h2 | h2 <;> simp at h2 <;> exact ⟨v, rfl, h2⟩
            · rw [retrievePkg_staleOk htag hget hdig hdg himg hmar] at h
              refine ⟨[Event.get { d with constraints := v },
                Event.digest { d with constraints := v },
                Event.fetch { d with constraints := v },
                Event.marshal { d with constraints := v },
                Event.store { d with constraints := v }], (congrArg Prod.snd h).symm, ?_⟩
              intro d2 hd2
              rcases hd2 with h2 | h2 | h2 <;> simp at h2 <;> exact ⟨v, rfl, h2⟩

theorem c8_witness :
    ∃ rest, [Event.tag depA, Event.get dfA, Event.fetch dfA, Event.marshal dfA,
        Event.store dfA] = Event.tag depA :: rest ∧
      ∀ d2, (Event.get d2 ∈ rest ∨ Event.store d2 ∈ rest ∨ Event.fetch d2 ∈ rest) →
        ∃ v, wAB.resolveTag depA = Except.ok v ∧ d2 = { depA with constraints := v } :=
  c8_finalize_strictly_before_cache_and_fetch wAB mstate0 depA
    (Except.ok (pkgA, { cache := [(dfA, pkgA)], acc := [] }))
    [Event.tag depA, Event.get dfA, Event.fetch dfA, Event.marshal dfA, Event.store dfA]
    (by decide)

/-- The scenario registry is digest-coherent: a fetched-and-marshaled
package carries exactly the digest the registry reports. -/
theorem coherent_wAB : Coherent wAB := by
  intro d t i q h1 h2
  have ht : d.constraints = t := by
    have h3 : Except.ok (d.constraints, 0) = Except.ok (t, i) := h1
    injection h3 with h4
    exact congrArg Prod.fst h4
  subst ht
  have hq : pkgOfAB { pkg := d.pkg, constraints := d.constraints, dtype := "" } = q := by
    have h3 : Except.ok (pkgOfAB { pkg := d.pkg, constraints := d.constraints, dtype := "" }) =
        Except.ok q := h2
    injection h3
  subst hq
  show Except.ok (pkgOfAB d).digest =
    Except.ok (pkgOfAB { pkg := d.pkg, constraints := d.constraints, dtype := "" }).digest
  rw [pkgOfAB, pkgOfAB]

/-- C9: after any successful fetch (cache-miss or stale-digest path), the
fetched package is stored under the finalized identity, a subsequent cache
get for that identity returns it, and — under the digest coherence of the
spec — its digest equals the registry's digest at fetch time. -/
theorem c9_cache_write_through :
    ∀ (w : World) (s : MState) (d df : Dep) (p : ParsedPackage) (s' : MState) (ev : List Event),
      Coherent w →
      Manager.retrievePkg w s d = (Except.ok (p, s'), ev) →
      Event.fetch df ∈ ev →
      (∃ v, w.resolveTag d = Except.ok v ∧ df = { d with constraints := v }) ∧
      cacheGet s'.cache df = Except.ok p ∧
      w.resolveDigest df = Except.ok p.digest := by
  intro w s d df p s' ev hco h hmem
  obtain ⟨v, htag, hcase⟩ := retrievePkg_ok_inv h
  rcases hcase with ⟨hget, ⟨t, i, himg, hmar⟩, hs, hev⟩ | ⟨hget, hdig, hs, hev⟩ |
    ⟨pc, dg, hget, hdig, hne, ⟨t, i, himg, hmar⟩, hs, hev⟩
  · rw [hev] at hmem
    simp at hmem
    subst hmem
    refine ⟨⟨v, htag, rfl⟩, ?_, ?_⟩
    · rw [hs]
      show cacheGet (cacheStore s.cache { d with constraints := v } p)
        { d with constraints := v } = Except.ok p
      rw [cacheGet_cacheStore, if_pos rfl]
    · exact hco { d with constraints := v } t i p himg hmar
  · rw [hev] at hmem
    simp at hmem
  · rw [hev] at hmem
    simp at hmem
    subst hmem
    refine ⟨⟨v, htag, rfl⟩, ?_, ?_⟩
    · rw [hs]
      show cacheGet (cacheStore s.cache { d with constraints := v } p)
        { d with constraints := v } = Except.ok p
      rw [cacheGet_cacheStore, if_pos rfl]
    · exact hco { d with constraints := v } t i p himg hmar

theorem c9_witness :
    (∃ v, wAB.resolveTag depA = Except.ok v ∧ dfA = { depA with constraints := v }) ∧
    cacheGet ({ cache := [(dfA, pkgA)], acc := [] } : MState).cache dfA = Except.ok pkgA ∧
    wAB.resolveDigest dfA = Except.ok pkgA.digest :=
  c9_cache_write_through wAB mstate0 depA dfA pkgA { cache := [(dfA, pkgA)], acc := [] }
    [Event.tag depA, Event.get dfA, Event.fetch dfA, Event.marshal dfA, Event.store dfA]
    coherent_wAB (by decide) (by decide)

/-- C3: for every dependency graph served by an always-answering, digest
coherent registry (a good world), a successful `Resolve` returns an
accumulator that extends the pre-call accumulator by exactly the depth-first
pre-order emission (`emitP` lists each package directly before the
emissions of its declared dependencies) and hence contains every package
reachable from the root via declared-dependency edges at least once; and in
the concrete scenario where
`A@^1.0` finalizes to `A@1.2.0` declaring `B@^2.0` which finalizes to
`B@2.3.0`, `Resolve` returns the accumulator `[A@1.2.0, B@2.3.0]` with `A`
before `B` and a resolved identity whose type and version are populated
from the resolved root package. -/
theorem c3_completeness_and_scenario :
    (∀ (w : World) (tagf : Dep → String) (pkgOf : Dep → ParsedPackage) (fuel : Nat)
      (s : MState) (d ud : Dep) (pkgs : List ParsedPackage) (s' : MState) (ev : List Event),
      GoodWorld w tagf pkgOf → CacheGood pkgOf s.cache →
      Manager.Resolve w fuel s d = (RunRes.ok (ud, pkgs, s'), ev) →
      pkgs = s.acc ++
        retOf tagf pkgOf d :: emitP (retOf tagf pkgOf) fuel (retOf tagf pkgOf d) ∧
      ∀ q, Reaches (retOf tagf pkgOf) d q → q ∈ pkgs) ∧
    (Manager.Resolve wAB 5 mstate0 depA).1 =
      RunRes.ok ({ pkg := "A", constraints := "1.2.0", dtype := "Configuration" },
        [pkgA, pkgB], { cache := [(dfA, pkgA), (dfB, pkgB)], acc := [pkgA, pkgB] }) := by
  constructor
  · intro w tagf pkgOf fuel s d ud pkgs s' ev hw hc hrun
    by_cases hok : okAtP (retOf tagf pkgOf) fuel (retOf tagf pkgOf d) = true
    · obtain ⟨s2, ev2, heq, hall⟩ := (Resolve_good hw fuel d hc).1 hok
      rw [hrun] at heq
      simp only [Prod.mk.injEq, RunRes.ok.injEq] at heq
      obtain ⟨⟨hud, hpkgs, hs2⟩, hev⟩ := heq
      constructor
      · rw [hpkgs, hall.1]
      · intro q hq
        rw [hpkgs, hall.1]
        exact List.mem_append_right _ (reaches_mem hq fuel hok)
    · have hgas := (Resolve_good hw fuel d hc).2 (Bool.eq_false_iff.mpr hok)
      rw [hrun] at hgas
      simp at hgas
  · decide

theorem c3_witness :
    [pkgA, pkgB] = mstate0.acc ++
      retOf tagAB pkgOfAB depA :: emitP (retOf tagAB pkgOfAB) 5 (retOf tagAB pkgOfAB depA) ∧
    pkgB ∈ [pkgA, pkgB] := by
  have h := c3_completeness_and_scenario.1 wAB tagAB pkgOfAB 5 mstate0 depA
    { pkg := "A", constraints := "1.2.0", dtype := "Configuration" } [pkgA, pkgB]
    { cache := [(dfA, pkgA), (dfB, pkgB)], acc := [pkgA, pkgB] }
    [Event.tag depA, Event.get dfA, Event.fetch dfA, Event.marshal dfA, Event.store dfA,
     Event.tag depB0, Event.get dfB, Event.fetch dfB, Event.marshal dfB, Event.store dfB]
    goodWorld_wAB (cacheGood_nil pkgOfAB) (by decide)
  exact ⟨h.1, h.2 pkgB (Reaches.step depA depB0 pkgB (by decide) (Reaches.here depB0))⟩

/-- C4: with an unchanged registry (good world), a second `Resolve` call on
the same Manager yields the identical resolved identity and the identical
resolved package list, served without any fetch call — but because the
accumulator is stored on the long-lived Manager, the second call's returned
list is the first list with those same packages appended again. -/
theorem c4_second_resolve_from_cache_appends :
    ∀ (w : World) (tagf : Dep → String) (pkgOf : Dep → ParsedPackage) (fuel : Nat)
      (s : MState) (d ud1 : Dep) (pkgs1 : List ParsedPackage) (s1 : MState) (ev1 : List Event),
      GoodWorld w tagf pkgOf → CacheGood pkgOf s.cache →
      Manager.Resolve w fuel s d = (RunRes.ok (ud1, pkgs1, s1), ev1) →
      ∃ L s2 ev2,
        pkgs1 = s.acc ++ L ∧
        Manager.Resolve w fuel s1 d = (RunRes.ok (ud1, pkgs1 ++ L, s2), ev2) ∧
        s2.acc = pkgs1 ++ L ∧
        fetchFree ev2 := by
  intro w tagf pkgOf fuel s d ud1 pkgs1 s1 ev1 hw hc hrun
  by_cases hok : okAtP (retOf tagf pkgOf) fuel (retOf tagf pkgOf d) = true
  · obtain ⟨s2, ev2, heq, hall⟩ := (Resolve_good hw fuel d hc).1 hok
    rw [hrun] at heq
    simp only [Prod.mk.injEq, RunRes.ok.injEq] at heq
    obtain ⟨⟨hud, hpkgs, hs2⟩, hev⟩ := heq
    subst hs2
    obtain ⟨hacc1, hcg1, hmono1, hvis1, hff1⟩ := hall
    obtain ⟨s3, ev3, heq2, hall2⟩ := (Resolve_good hw fuel d hcg1).1 hok
    obtain ⟨hacc2, hcg2, hmono2, hvis2, hff2⟩ := hall2
    refine ⟨retOf tagf pkgOf d :: emitP (retOf tagf pkgOf) fuel (retOf tagf pkgOf d), s3, ev3,
      ?_, ?_, ?_, ?_⟩
    · rw [hpkgs, hacc1]
    · rw [heq2, hud, hpkgs, hacc2]
    · rw [hacc2, hpkgs]
    · exact hff2 hvis1
  · have hgas := (Resolve_good hw fuel d hc).2 (Bool.eq_false_iff.mpr hok)
    rw [hrun] at hgas
    simp at hgas

theorem c4_witness :
    ∃ L s2 ev2,
      [pkgA, pkgB] = mstate0.acc ++ L ∧
      Manager.Resolve wAB 5 { cache := [(dfA, pkgA), (dfB, pkgB)], acc := [pkgA, pkgB] } depA =
        (RunRes.ok ({ pkg := "A", constraints := "1.2.0", dtype := "Configuration" },
          [pkgA, pkgB] ++ L, s2), ev2) ∧
      s2.acc = [pkgA, pkgB] ++ L ∧
      fetchFree ev2 :=
  c4_second_resolve_from_cache_appends wAB tagAB pkgOfAB 5 mstate0 depA
    { pkg := "A", constraints := "1.2.0", dtype := "Configuration" } [pkgA, pkgB]
    { cache := [(dfA, pkgA), (dfB, pkgB)], acc := [pkgA, pkgB] }
    [Event.tag depA, Event.get dfA, Event.fetch dfA, Event.marshal dfA, Event.store dfA,
     Event.tag depB0, Event.get dfB, Event.fetch dfB, Event.marshal dfB, Event.store dfB]
    goodWorld_wAB (cacheGood_nil pkgOfAB) (by decide)

/-- C10: the recursive resolution has no cycle detection.  Whenever the
declared-dependency graph admits a rank function decreasing along its edges
(every acyclic graph does), the traversal terminates successfully once the
fuel reaches the root's rank; on the concrete cyclic registry where `A`
depends on `B` and `B` depends on `A`, every fuel bound is exhausted
(`RunRes.gas`) — the fuel-free Go original would recurse forever. -/
theorem c10_terminates_acyclic_diverges_on_cycle :
    (∀ (w : World) (tagf : Dep → String) (pkgOf : Dep → ParsedPackage) (rank : Dep → Nat)
      (s : MState) (d : Dep) (fuel : Nat),
      GoodWorld w tagf pkgOf → CacheGood pkgOf s.cache →
      (∀ d0 d2, d2 ∈ (retOf tagf pkgOf d0).deps → rank d2 < rank d0) →
      rank d ≤ fuel →
      ∃ s' ev, Manager.resolveAllDeps w fuel s (retOf tagf pkgOf d) = (RunRes.ok s', ev)) ∧
    (∀ fuel : Nat,
      (Manager.resolveAllDeps wCyc fuel mstate0 (retOf tagC pkgOfC cdepA)).1 = RunRes.gas) := by
  constructor
  · intro w tagf pkgOf rank s d fuel hw hc hr hfuel
    have hok := okAtP_of_rank hr fuel d hfuel
    obtain ⟨s', ev, heq, -⟩ := (resolveAllDeps_master hw fuel (retOf tagf pkgOf d) s hc).1 hok
    exact ⟨s', ev, heq⟩
  · intro fuel
    exact (resolveAllDeps_master goodWorld_wCyc fuel (retOf tagC pkgOfC cdepA) mstate0
      (cacheGood_nil pkgOfC)).2 (okAtP_cyc_false fuel).1

theorem c10_witness :
    ∃ s' ev, Manager.resolveAllDeps wAB 5 mstate0 (retOf tagAB pkgOfAB depA) =
      (RunRes.ok s', ev) :=
  c10_terminates_acyclic_diverges_on_cycle.1 wAB tagAB pkgOfAB
    (fun d => if d.pkg = "A" then 1 else 0) mstate0 depA 5 goodWorld_wAB
    (cacheGood_nil pkgOfAB)
    (by
      intro d0 d2 hmem
      simp only [retOf, pkgOfAB, finDep] at hmem
      by_cases hp : d0.pkg = "A"
      · rw [if_pos hp] at hmem
        have h2 : d2 = depB0 := by simpa [pkgA] using hmem
        subst h2
        show (if depB0.pkg = "A" then 1 else 0) < (if d0.pkg = "A" then 1 else 0)
        rw [if_pos hp, if_neg (by decide : ¬ depB0.pkg = "A")]
        decide
      · rw [if_neg hp] at hmem
        simp [pkgB] at hmem)
    (by decide)

/-- C7: the snapshot merge is last-writer-wins in accumulation order — for
every type identifier, the view built by `Snapshot` holds exactly the
validator of the last entry for that identifier in the final accumulator's
validator sequence, and no entry when no accumulated package declares
it. -/
theorem c7_snapshot_last_writer_wins :
    ∀ (w : World) (fuel : Nat) (c : List (Dep × ParsedPackage)) (ds : List Dep)
      (S : Snapshot) (s' : MState) (ev : List Event),
      Manager.Snapshot w fuel { cache := c, acc := [] } ds = (RunRes.ok (S, s'), ev) →
      ∀ k, viewLookup S.view k = lastVal (flatVals s'.acc) k := by
  intro w fuel c ds S s' ev h k
  rcases hloop : Manager.snapshotLoop w fuel { cache := c, acc := [] } ds [] with ⟨r, ev0⟩
  rcases r with a | e | -
  · obtain ⟨view, s1⟩ := a
    simp only [Manager.Snapshot, hloop] at h
    simp only [Prod.mk.injEq, RunRes.ok.injEq] at h
    obtain ⟨⟨hS, hs1⟩, hev⟩ := h
    rw [← hS, ← hs1]
    exact snapshotLoop_lastVal ds { cache := c, acc := [] } [] (fun k2 => rfl) view s1 ev0
      hloop k
  · simp only [Manager.Snapshot, hloop] at h
    simp at h
  · simp only [Manager.Snapshot, hloop] at h
    simp at h

theorem c7_witness :
    viewLookup ({ view := [("T.A", 1), ("T.B", 2)] } : Snapshot).view "T.B" =
      lastVal (flatVals [pkgA, pkgB]) "T.B" :=
  c7_snapshot_last_writer_wins wAB 5 [] [depA] { view := [("T.A", 1), ("T.B", 2)] }
    { cache := [(dfA, pkgA), (dfB, pkgB)], acc := [pkgA, pkgB] }
    [Event.tag depA, Event.get dfA, Event.fetch dfA, Event.marshal dfA, Event.store dfA,
     Event.tag depB0, Event.get dfB, Event.fetch dfB, Event.marshal dfB, Event.store dfB]
    (by decide) "T.B"
